import Mathlib

/-!
Shallow embedding of the schedule-analysis core of the repository
(files analyze_schedule.py and league_report.py; the two files contain
near-identical copies of every function embedded here).

Modelling conventions:
* Python float scores are modelled as rationals.  The arithmetic the
  claims are about (halves, averages, comparisons) is exact there.
* A Python dict keyed by team name is modelled as an association list
  in insertion order, which is exactly the iteration order of the dict.
* Python code that raises an exception (KeyError on a missing team,
  IndexError on a missing week) is modelled as returning none.
  Division of rationals by zero yields 0 in Lean while Python raises
  ZeroDivisionError; every theorem below that divides by numTeams - 1
  assumes at least two teams, so the two semantics agree on all inputs
  the theorems speak about.
-/

abbrev Team := String

/-- One record of the dict built at the top of calculate_standings:
records[team] = {wins, losses, ties, points}. -/
structure TeamRec where
  wins : Nat
  losses : Nat
  ties : Nat
  points : Rat
deriving DecidableEq, Repr

/-- weekly_scores: dict from team name to the list of weekly scores. -/
abbrev ScoreMap := List (Team × List Rat)

/-- One week of a schedule: the list of (team1, team2) matchups. -/
abbrev Week := List (Team × Team)

/-- A schedule: a list of weeks. -/
abbrev Schedule := List Week

/-- Dict lookup: first binding of the key, none when absent
(a Python dict has unique keys, so first = only). -/
def lookupQ {β : Type} : List (Team × β) → Team → Option β
  | [], _ => none
  | p :: rest, t => if p.1 = t then some p.2 else lookupQ rest t

/-- weekly_scores[t][w] : none models the KeyError / IndexError of the source. -/
def scoreAt (ws : ScoreMap) (t : Team) (w : Nat) : Option Rat :=
  match lookupQ ws t with
  | some l => l[w]?
  | none => none

/-- The initial records dict of calculate_standings:
wins = losses = ties = 0, points = sum of the full score list. -/
def initRecords (ws : ScoreMap) : List (Team × TeamRec) :=
  ws.map fun p => (p.1, ⟨0, 0, 0, p.2.sum⟩)

/-- records[t] = f records[t] : the single dict entry with key t is updated. -/
def updRec (recs : List (Team × TeamRec)) (t : Team) (f : TeamRec → TeamRec) :
    List (Team × TeamRec) :=
  recs.map fun p => if p.1 = t then (p.1, f p.2) else p

/-- The body of the inner loop of calculate_standings: score both teams of one
matchup at week index w.  Strictly higher score wins; equal scores tie. -/
def processMatchup (ws : ScoreMap) (w : Nat) (recs : List (Team × TeamRec))
    (m : Team × Team) : Option (List (Team × TeamRec)) :=
  match scoreAt ws m.1 w, scoreAt ws m.2 w with
  | some s1, some s2 =>
    if s2 < s1 then
      some (updRec (updRec recs m.1 fun r => { r with wins := r.wins + 1 })
        m.2 fun r => { r with losses := r.losses + 1 })
    else if s1 < s2 then
      some (updRec (updRec recs m.2 fun r => { r with wins := r.wins + 1 })
        m.1 fun r => { r with losses := r.losses + 1 })
    else
      some (updRec (updRec recs m.1 fun r => { r with ties := r.ties + 1 })
        m.2 fun r => { r with ties := r.ties + 1 })
  | _, _ => none

/-- All matchups of one week, in order. -/
def processWeek (ws : ScoreMap) (w : Nat) :
    List (Team × TeamRec) → Week → Option (List (Team × TeamRec))
  | recs, [] => some recs
  | recs, m :: rest =>
    match processMatchup ws w recs m with
    | some recs2 => processWeek ws w recs2 rest
    | none => none

/-- All weeks of the schedule; the natural number is the running week index
(the enumerate of the source). -/
def processSchedule (ws : ScoreMap) :
    Nat → List (Team × TeamRec) → Schedule → Option (List (Team × TeamRec))
  | _, recs, [] => some recs
  | w, recs, wk :: rest =>
    match processWeek ws w recs wk with
    | some recs2 => processSchedule ws (w + 1) recs2 rest
    | none => none

/-- One row of the returned standings list: (team, wins, losses, points).
The ties counter of the records dict is not part of the returned tuple. -/
structure StandRow where
  team : Team
  wins : Nat
  losses : Nat
  points : Rat
deriving DecidableEq, Repr

/-- The sort order of calculate_standings: key (wins, points), descending,
stable.  standGE a b holds when the key of a is lexicographically at least
the key of b. -/
def standGE (a b : StandRow) : Prop :=
  b.wins < a.wins ∨ (a.wins = b.wins ∧ b.points ≤ a.points)

instance : DecidableRel standGE := fun a b => by
  unfold standGE; infer_instance

instance : IsTotal StandRow standGE where
  total a b := by
    unfold standGE
    rcases Nat.lt_trichotomy a.wins b.wins with h | h | h
    · exact Or.inr (Or.inl h)
    · rcases le_total b.points a.points with hp | hp
      · exact Or.inl (Or.inr ⟨h, hp⟩)
      · exact Or.inr (Or.inr ⟨h.symm, hp⟩)
    · exact Or.inl (Or.inl h)

instance : IsTrans StandRow standGE where
  trans a b c hab hbc := by
    unfold standGE at *
    rcases hab with h1 | ⟨h1, h1p⟩ <;> rcases hbc with h2 | ⟨h2, h2p⟩
    · exact Or.inl (h2.trans h1)
    · exact Or.inl (h2 ▸ h1)
    · exact Or.inl (h1 ▸ h2)
    · exact Or.inr ⟨h1.trans h2, h2p.trans h1p⟩

/-- calculate_standings: build the records dict over all weeks, turn it into
(team, wins, losses, points) rows, stable-sort by (wins, points) descending.
A stable insertion sort produces the same list as the stable sort of the
source, since the order is a total preorder. -/
def calculate_standings (ws : ScoreMap) (sched : Schedule) :
    Option (List StandRow) :=
  match processSchedule ws 0 (initRecords ws) sched with
  | some recs =>
    some (List.insertionSort standGE
      (recs.map fun p => ⟨p.1, p.2.wins, p.2.losses, p.2.points⟩))
  | none => none

/-- get_playoff_teams: the set of team names of the first
min(num_playoff_teams, len(standings)) rows, here kept as a list
(its members are the set). -/
def get_playoff_teams (standings : List StandRow) (k : Nat) : List Team :=
  (standings.take k).map StandRow.team

/-- wins + losses + ties of one record. -/
def sumWLT (r : TeamRec) : Nat := r.wins + r.losses + r.ties

/-- All team names mentioned by the matchups of one week, in order. -/
def weekTeams : Week → List Team
  | [] => []
  | m :: rest => m.1 :: m.2 :: weekTeams rest

/-- All team names mentioned anywhere in a schedule. -/
def schedTeams : Schedule → List Team
  | [] => []
  | wk :: rest => weekTeams wk ++ schedTeams rest

/-- Occurrences of one team name in a list of names. -/
def occCount (k : Team) : List Team → Nat
  | [] => 0
  | a :: rest => (if k = a then 1 else 0) + occCount k rest

/-- Occurrences of one team name in a matchup pair. -/
def pairCount (k : Team) (m : Team × Team) : Nat :=
  (if k = m.1 then 1 else 0) + (if k = m.2 then 1 else 0)

/-- Number of times team k is mentioned across the weeks of a schedule. -/
def schedCount (k : Team) : Schedule → Nat
  | [] => 0
  | wk :: rest => occCount k (weekTeams wk) + schedCount k rest

/-- The dominance hypothesis of the spec: team t is present, and in every week
below numWeeks its score strictly exceeds the score of every other team. -/
def dominates (ws : ScoreMap) (t : Team) (numWeeks : Nat) : Prop :=
  t ∈ ws.map Prod.fst ∧
  ∀ p ∈ ws, p.1 ≠ t → ∀ w < numWeeks,
    p.2.getD w 0 < ((lookupQ ws t).getD []).getD w 0

instance (ws : ScoreMap) (t : Team) (numWeeks : Nat) :
    Decidable (dominates ws t numWeeks) := by
  unfold dominates; infer_instance

def tA : Team := "A"
def tB : Team := "B"
def tC : Team := "C"
def tD : Team := "D"

/-- The score matrix of the concrete scenario of the spec. -/
def wsABCD : ScoreMap :=
  [(tA, [100, 60]), (tB, [90, 95]), (tC, [80, 85]), (tD, [70, 50])]

/-- The actual schedule of the concrete scenario of the spec. -/
def schedABCD : Schedule :=
  [[(tA, tB), (tC, tD)], [(tA, tC), (tB, tD)]]

/-! ## calculate_expected_wins -/

/-- The sort order of the per-week (team, score) list: score descending,
stable, as produced by week_scores.sort(reverse=True) on the score key. -/
def scoreGE (a b : Team × Rat) : Prop := b.2 ≤ a.2

instance : DecidableRel scoreGE := fun a b => by
  unfold scoreGE; infer_instance

/-- The per-week list of (team, weekly_scores[team][week_idx]) pairs, in dict
order; none models the IndexError raised on a short score list. -/
def weekPairs : ScoreMap → Nat → Option (List (Team × Rat))
  | [], _ => some []
  | p :: rest, w =>
    match p.2[w]? with
    | some s => (weekPairs rest w).map fun l => (p.1, s) :: l
    | none => none

/-- win_rate of one score against a week list:
(teams_beaten + 0.5 * teams_tied) / (num_teams - 1), where teams_tied
excludes the team itself. -/
def winRate (wk : List (Team × Rat)) (numTeams : Nat) (s : Rat) : Rat :=
  let beaten := (wk.filter fun q => decide (q.2 < s)).length
  let tied := (wk.filter fun q => decide (q.2 = s)).length - 1
  ((beaten : Rat) + (0.5 : Rat) * (tied : Rat)) / ((numTeams : Rat) - 1)

/-- expected_wins[t] += v for the single dict entry with key t. -/
def updAdd (acc : List (Team × Rat)) (t : Team) (v : Rat) : List (Team × Rat) :=
  acc.map fun e => if e.1 = t then (e.1, e.2 + v) else e

/-- One week of the expected-wins loop: every (team, score) entry of the
sorted week list adds its win rate to the accumulator dict. -/
def applyWeek (acc : List (Team × Rat)) (wk : List (Team × Rat))
    (numTeams : Nat) : List (Team × Rat) :=
  wk.foldl (fun a q => updAdd a q.1 (winRate wk numTeams q.2)) acc

/-- calculate_expected_wins.  num_weeks is the score-list length of the first
team (an empty dict raises IndexError on teams[0], hence none). -/
def calculate_expected_wins (ws : ScoreMap) : Option (List (Team × Rat)) :=
  match ws with
  | [] => none
  | p0 :: _ =>
    let numTeams := ws.length
    let numWeeks := p0.2.length
    (List.range numWeeks).foldlM
      (fun acc w => (weekPairs ws w).map fun pairs =>
        applyWeek acc (List.insertionSort scoreGE pairs) numTeams)
      (ws.map fun p => (p.1, (0 : Rat)))

/-! ## Schedule sampling (generate_round_robin_week / generate_random_schedule)

The source calls rng.shuffle from the Python standard library, which is not
part of the repository.  Modelled from the spec: shuffle the team list
using the supplied pseudo-random generator, producing a permutation of the
list and advancing the generator state deterministically.  The generator is
modelled as a natural-number state with a linear-congruential step, and the
shuffle as a selection shuffle (repeatedly extract the element at a
generator-chosen index); what every theorem below uses is only that the
result is a permutation and that the whole process is a deterministic
function of the seed. -/

/-- Modelled from the spec: one step of the pseudo-random generator. -/
def rngNext (s : Nat) : Nat × Nat :=
  let s2 := (s * 1103515245 + 12345) % 2147483648
  (s2, s2)

/-- Modelled from the spec: selection shuffle, structurally recursive on a
fuel argument that the wrapper sets to the list length. -/
def shuffleGo : Nat → List Team → Nat → List Team × Nat
  | 0, _, rng => ([], rng)
  | _ + 1, [], rng => ([], rng)
  | fuel + 1, a :: rest, rng =>
    let k := rngNext rng
    let i := k.1 % (a :: rest).length
    let x := (a :: rest).getD i a
    let res := shuffleGo fuel ((a :: rest).eraseIdx i) k.2
    (x :: res.1, res.2)

/-- Modelled from the spec: shuffle a list with the generator. -/
def shuffle (l : List Team) (rng : Nat) : List Team × Nat :=
  shuffleGo l.length l rng

/-- Pair consecutive elements (positions 0-1, 2-3, ...); none models the
IndexError raised on a list of odd length. -/
def pairUp : List Team → Option (List (Team × Team))
  | [] => some []
  | [_] => none
  | a :: b :: rest => (pairUp rest).map fun ms => (a, b) :: ms

/-- generate_round_robin_week: shuffle the team list, then pair consecutive
elements; also returns the advanced generator state. -/
def generate_round_robin_week (teams : List Team) (rng : Nat) :
    Option (List (Team × Team) × Nat) :=
  let sh := shuffle teams rng
  (pairUp sh.1).map fun ms => (ms, sh.2)

/-- generate_random_schedule: one sampled week per week index. -/
def generate_random_schedule (teams : List Team) :
    Nat → Nat → Option (Schedule × Nat)
  | 0, rng => some ([], rng)
  | n + 1, rng =>
    match generate_round_robin_week teams rng with
    | some (wk, rng2) =>
      (generate_random_schedule teams n rng2).map fun p => (wk :: p.1, p.2)
    | none => none

/-! ## run_monte_carlo_analysis -/

/-- The accumulator dicts of run_monte_carlo_analysis (league_report.py
version, which also counts championships).  The defaultdicts are modelled
as total functions with default 0. -/
structure SimAcc where
  playoff_counts : Team → Nat
  placement_counts : Team → Nat → Nat
  total_wins : Team → Nat
  championship_counts : Team → Nat

/-- counter[t] += 1. -/
def bump (f : Team → Nat) (t : Team) : Team → Nat :=
  fun u => if u = t then f u + 1 else f u

/-- One step of the placement loop at 1-based place p: increment the
placement histogram, add the row wins to total_wins, and when p = 1
increment the championship counter of the row team. -/
def placeUpd (acc : SimAcc) (p : Nat) (row : StandRow) : SimAcc :=
  { acc with
    placement_counts := fun u q =>
      if u = row.team ∧ q = p then acc.placement_counts u q + 1
      else acc.placement_counts u q
    total_wins := fun u =>
      if u = row.team then acc.total_wins u + row.wins else acc.total_wins u
    championship_counts :=
      if p = 1 then bump acc.championship_counts row.team
      else acc.championship_counts }

/-- for place, (team, wins, ...) in enumerate(standings, start). -/
def recordPlacements (acc : SimAcc) : Nat → List StandRow → SimAcc
  | _, [] => acc
  | p, row :: rest => recordPlacements (placeUpd acc p row) (p + 1) rest

/-- The playoff-count loop: the playoff list is deduplicated because the
source iterates a set of team names. -/
def recordPlayoffs (acc : SimAcc) (pteams : List Team) : SimAcc :=
  pteams.foldl (fun a u => { a with playoff_counts := bump a.playoff_counts u }) acc

/-- The body of one simulation trial. -/
def runTrial (ws : ScoreMap) (numWeeks slots : Nat) (acc : SimAcc) (rng : Nat) :
    Option (SimAcc × Nat) :=
  match generate_random_schedule (ws.map Prod.fst) numWeeks rng with
  | none => none
  | some (sched, rng2) =>
    match calculate_standings ws sched with
    | none => none
    | some standings =>
      let acc1 := recordPlayoffs acc ((get_playoff_teams standings slots).dedup)
      some (recordPlacements acc1 1 standings, rng2)

/-- The trial loop. -/
def runTrials (ws : ScoreMap) (numWeeks slots : Nat) :
    Nat → SimAcc → Nat → Option SimAcc
  | 0, acc, _ => some acc
  | n + 1, acc, rng =>
    match runTrial ws numWeeks slots acc rng with
    | some (acc2, rng2) => runTrials ws numWeeks slots n acc2 rng2
    | none => none

def initAcc : SimAcc :=
  ⟨fun _ => 0, fun _ _ => 0, fun _ => 0, fun _ => 0⟩

/-- The Monte Carlo aggregator with an explicit seed (the seed of the spec
contract).  A trial that fails aborts the whole run, surfacing the error. -/
def run_monte_carlo (ws : ScoreMap) (numWeeks slots numTrials seed : Nat) :
    Option SimAcc :=
  runTrials ws numWeeks slots numTrials initAcc seed

/-- run_monte_carlo_analysis as in the source, where the generator is
seeded with the constant 42. -/
def run_monte_carlo_analysis (ws : ScoreMap) (numWeeks slots numTrials : Nat) :
    Option SimAcc :=
  run_monte_carlo ws numWeeks slots numTrials 42


/-! ## Lemmas: the sampler produces perfect matchings -/

theorem getD_cons_eraseIdx_perm :
    ∀ (l : List Team) (i : Nat) (d : Team), i < l.length →
      (l.getD i d :: l.eraseIdx i).Perm l
  | [], i, d => by intro h; simp at h
  | a :: rest, 0, d => by intro _; simp
  | a :: rest, i + 1, d => by
    intro h
    have hr : i < rest.length := by simp at h; omega
    have ih := getD_cons_eraseIdx_perm rest i d hr
    simp only [List.getD_cons_succ, List.eraseIdx_cons_succ]
    exact (List.Perm.swap a (rest.getD i d) (rest.eraseIdx i)).trans (ih.cons a)

theorem shuffleGo_fst_perm :
    ∀ (fuel : Nat) (l : List Team) (rng : Nat), l.length ≤ fuel →
      (shuffleGo fuel l rng).1.Perm l := by
  intro fuel
  induction fuel with
  | zero =>
    intro l rng h
    have : l = [] := List.eq_nil_of_length_eq_zero (Nat.le_zero.mp h)
    subst this
    simp [shuffleGo]
  | succ n ih =>
    intro l rng h
    match l with
    | [] => simp [shuffleGo]
    | a :: rest =>
      have hpos : 0 < (a :: rest).length := by simp
      have hi : (rngNext rng).1 % (a :: rest).length < (a :: rest).length :=
        Nat.mod_lt _ hpos
      have hlen :
          ((a :: rest).eraseIdx ((rngNext rng).1 % (a :: rest).length)).length ≤ n := by
        rw [List.length_eraseIdx_of_lt hi]
        simp at h ⊢
        omega
      have htail := ih ((a :: rest).eraseIdx ((rngNext rng).1 % (a :: rest).length))
        (rngNext rng).2 hlen
      have hswap := getD_cons_eraseIdx_perm (a :: rest)
        ((rngNext rng).1 % (a :: rest).length) a hi
      show ((a :: rest).getD ((rngNext rng).1 % (a :: rest).length) a ::
        (shuffleGo n ((a :: rest).eraseIdx ((rngNext rng).1 % (a :: rest).length))
          (rngNext rng).2).1).Perm (a :: rest)
      exact (htail.cons _).trans hswap

theorem shuffle_fst_perm (l : List Team) (rng : Nat) : (shuffle l rng).1.Perm l :=
  shuffleGo_fst_perm l.length l rng (Nat.le_refl _)

theorem pairUp_odd :
    ∀ (l : List Team), l.length % 2 = 1 → pairUp l = none
  | [] => by intro h; simp at h
  | [_] => by intro _; rfl
  | a :: b :: rest => by
    intro h
    have hr : rest.length % 2 = 1 := by simp at h ⊢; omega
    simp [pairUp, pairUp_odd rest hr]

theorem pairUp_weekTeams :
    ∀ (l : List Team) (ms : List (Team × Team)), pairUp l = some ms →
      weekTeams ms = l
  | [], ms => by intro h; simp [pairUp] at h; subst h; rfl
  | [_], ms => by intro h; simp [pairUp] at h
  | a :: b :: rest, ms => by
    intro h
    simp only [pairUp, Option.map_eq_some'] at h
    obtain ⟨ms2, h2, rfl⟩ := h
    simp [weekTeams, pairUp_weekTeams rest ms2 h2]

theorem pairUp_even_isSome :
    ∀ (l : List Team), l.length % 2 = 0 → ∃ ms, pairUp l = some ms
  | [] => by intro _; exact ⟨[], rfl⟩
  | [_] => by intro h; simp at h
  | a :: b :: rest => by
    intro h
    have hr : rest.length % 2 = 0 := by simp at h ⊢; omega
    obtain ⟨ms, hms⟩ := pairUp_even_isSome rest hr
    exact ⟨(a, b) :: ms, by simp [pairUp, hms]⟩

/-! ## Lemmas: lookup and the missing-team failure -/

theorem lookupQ_eq_none {β : Type} :
    ∀ (ws : List (Team × β)) (t : Team),
      lookupQ ws t = none ↔ t ∉ ws.map Prod.fst
  | [], t => by simp [lookupQ]
  | p :: rest, t => by
    by_cases h : p.1 = t
    · subst h
      simp [lookupQ]
    · rw [lookupQ, if_neg h, lookupQ_eq_none rest t]
      simp only [List.map_cons, List.mem_cons, not_or]
      constructor
      · intro hn
        exact ⟨fun he => h he.symm, hn⟩
      · intro hn
        exact hn.2

theorem lookupQ_mem {β : Type} :
    ∀ (ws : List (Team × β)) (t : Team) (v : β),
      lookupQ ws t = some v → (t, v) ∈ ws
  | [], t, v => by simp [lookupQ]
  | p :: rest, t, v => by
    intro hv
    by_cases h : p.1 = t
    · subst h
      rw [lookupQ, if_pos rfl] at hv
      injection hv with hv
      subst hv
      exact List.mem_cons_self _ _
    · rw [lookupQ, if_neg h] at hv
      exact List.mem_cons_of_mem p (lookupQ_mem rest t v hv)

theorem lookupQ_isSome_of_mem {β : Type} (ws : List (Team × β)) (t : Team)
    (h : t ∈ ws.map Prod.fst) : ∃ v, lookupQ ws t = some v := by
  cases hv : lookupQ ws t with
  | none => exact absurd ((lookupQ_eq_none ws t).mp hv) (by simp [h])
  | some v => exact ⟨v, rfl⟩

theorem processMatchup_none_of_missing (ws : ScoreMap) (w : Nat)
    (recs : List (Team × TeamRec)) (m : Team × Team)
    (h : m.1 ∉ ws.map Prod.fst ∨ m.2 ∉ ws.map Prod.fst) :
    processMatchup ws w recs m = none := by
  rcases h with h | h
  · have h1 : scoreAt ws m.1 w = none := by
      simp [scoreAt, (lookupQ_eq_none ws m.1).mpr h]
    simp only [processMatchup, h1]
  · have h2 : scoreAt ws m.2 w = none := by
      simp [scoreAt, (lookupQ_eq_none ws m.2).mpr h]
    cases h1 : scoreAt ws m.1 w <;> simp only [processMatchup, h1, h2]

theorem processWeek_none_of_missing (ws : ScoreMap) (w : Nat) :
    ∀ (wk : Week) (recs : List (Team × TeamRec)),
      (∃ m ∈ wk, m.1 ∉ ws.map Prod.fst ∨ m.2 ∉ ws.map Prod.fst) →
      processWeek ws w recs wk = none
  | [], recs => by simp
  | m0 :: rest, recs => by
    intro h
    obtain ⟨m, hm, hbad⟩ := h
    rcases List.mem_cons.mp hm with rfl | hm2
    · simp only [processWeek, processMatchup_none_of_missing ws w recs m hbad]
    · cases h0 : processMatchup ws w recs m0 with
      | none => simp only [processWeek, h0]
      | some recs2 =>
        simp only [processWeek, h0]
        exact processWeek_none_of_missing ws w rest recs2 ⟨m, hm2, hbad⟩

theorem processSchedule_none_of_missing (ws : ScoreMap) :
    ∀ (sched : Schedule) (w0 : Nat) (recs : List (Team × TeamRec)),
      (∃ wk ∈ sched, ∃ m ∈ wk, m.1 ∉ ws.map Prod.fst ∨ m.2 ∉ ws.map Prod.fst) →
      processSchedule ws w0 recs sched = none
  | [], w0, recs => by simp
  | wk0 :: rest, w0, recs => by
    intro h
    obtain ⟨wk, hwk, hbad⟩ := h
    rcases List.mem_cons.mp hwk with rfl | hwk2
    · simp only [processSchedule, processWeek_none_of_missing ws w0 wk recs hbad]
    · cases h0 : processWeek ws w0 recs wk0 with
      | none => simp only [processSchedule, h0]
      | some recs2 =>
        simp only [processSchedule, h0]
        exact processSchedule_none_of_missing ws rest (w0 + 1) recs2 ⟨wk, hwk2, hbad⟩

/-! ## Lemmas: entrywise effect of one matchup -/

/-- The effect of scoring one matchup with scores sa, sb on the record of the
team named k: exactly the pair of dict updates processMatchup performs. -/
def matchEffect (m : Team × Team) (sa sb : Rat) (k : Team) (r : TeamRec) : TeamRec :=
  if sb < sa then
    let r1 := if k = m.1 then { r with wins := r.wins + 1 } else r
    if k = m.2 then { r1 with losses := r1.losses + 1 } else r1
  else if sa < sb then
    let r1 := if k = m.2 then { r with wins := r.wins + 1 } else r
    if k = m.1 then { r1 with losses := r1.losses + 1 } else r1
  else
    let r1 := if k = m.1 then { r with ties := r.ties + 1 } else r
    if k = m.2 then { r1 with ties := r1.ties + 1 } else r1

theorem processMatchup_eq (ws : ScoreMap) (w : Nat) (m : Team × Team)
    (sa sb : Rat) (ha : scoreAt ws m.1 w = some sa) (hb : scoreAt ws m.2 w = some sb)
    (recs : List (Team × TeamRec)) :
    processMatchup ws w recs m =
      some (recs.map fun p => (p.1, matchEffect m sa sb p.1 p.2)) := by
  by_cases h1 : sb < sa
  · simp only [processMatchup, ha, hb, if_pos h1, updRec, List.map_map,
      Option.some.injEq]
    rw [List.map_eq_map_iff]
    intro p _
    simp only [Function.comp_apply, matchEffect, if_pos h1]
    split_ifs <;> simp_all
  · by_cases h2 : sa < sb
    · simp only [processMatchup, ha, hb, if_neg h1, if_pos h2, updRec, List.map_map,
        Option.some.injEq]
      rw [List.map_eq_map_iff]
      intro p _
      simp only [Function.comp_apply, matchEffect, if_neg h1, if_pos h2]
      split_ifs <;> simp_all
    · simp only [processMatchup, ha, hb, if_neg h1, if_neg h2, updRec, List.map_map,
        Option.some.injEq]
      rw [List.map_eq_map_iff]
      intro p _
      simp only [Function.comp_apply, matchEffect, if_neg h1, if_neg h2]
      split_ifs <;> simp_all

theorem matchEffect_points (m : Team × Team) (sa sb : Rat) (k : Team) (r : TeamRec) :
    (matchEffect m sa sb k r).points = r.points := by
  simp only [matchEffect]
  split_ifs <;> rfl

theorem matchEffect_sumWLT (m : Team × Team) (sa sb : Rat) (k : Team) (r : TeamRec) :
    sumWLT (matchEffect m sa sb k r) = sumWLT r + pairCount k m := by
  simp only [matchEffect, sumWLT, pairCount]
  split_ifs <;> simp <;> omega

theorem matchEffect_of_absent (m : Team × Team) (sa sb : Rat) (k : Team)
    (r : TeamRec) (hk1 : k ≠ m.1) (hk2 : k ≠ m.2) :
    matchEffect m sa sb k r = r := by
  simp only [matchEffect, if_neg hk1, if_neg hk2]
  split_ifs <;> rfl

theorem matchEffect_wins_first (m : Team × Team) (sa sb : Rat) (k : Team)
    (r : TeamRec) (h1 : sb < sa) (hk : k = m.1) :
    (matchEffect m sa sb k r).wins = r.wins + 1 := by
  simp only [matchEffect, if_pos h1, if_pos hk]
  split_ifs <;> rfl

theorem matchEffect_wins_second (m : Team × Team) (sa sb : Rat) (k : Team)
    (r : TeamRec) (h1 : ¬sb < sa) (h2 : sa < sb) (hk : k = m.2) :
    (matchEffect m sa sb k r).wins = r.wins + 1 := by
  simp only [matchEffect, if_neg h1, if_pos h2, if_pos hk]
  split_ifs <;> rfl

/-! ## Lemmas: one week as a pure per-key effect -/

theorem occCount_weekTeams_cons (k : Team) (m : Team × Team) (rest : Week) :
    occCount k (weekTeams (m :: rest)) =
      pairCount k m + occCount k (weekTeams rest) := by
  simp [weekTeams, occCount, pairCount, Nat.add_assoc]

theorem occCount_eq_count (k : Team) :
    ∀ l : List Team, occCount k l = l.count k
  | [] => rfl
  | a :: rest => by
    rw [occCount, occCount_eq_count k rest, List.count_cons]
    by_cases h : k = a
    · subst h
      simp [Nat.add_comm]
    · simp [h, Ne.symm h]

theorem occCount_append (k : Team) :
    ∀ l1 l2 : List Team, occCount k (l1 ++ l2) = occCount k l1 + occCount k l2
  | [], l2 => by simp [occCount]
  | a :: rest, l2 => by
    show occCount k (a :: (rest ++ l2)) = occCount k (a :: rest) + occCount k l2
    rw [occCount, occCount, occCount_append k rest l2]
    omega

theorem mem_weekTeams_iff (u : Team) :
    ∀ wk : Week, u ∈ weekTeams wk ↔ ∃ m ∈ wk, m.1 = u ∨ m.2 = u
  | [] => by simp [weekTeams]
  | m :: rest => by
    simp only [weekTeams, List.mem_cons, mem_weekTeams_iff u rest]
    constructor
    · rintro (rfl | rfl | ⟨m2, hm2, hu⟩)
      · exact ⟨m, Or.inl rfl, Or.inl rfl⟩
      · exact ⟨m, Or.inl rfl, Or.inr rfl⟩
      · exact ⟨m2, Or.inr hm2, hu⟩
    · rintro ⟨m2, (rfl | hm2), hu⟩
      · rcases hu with rfl | rfl
        · exact Or.inl rfl
        · exact Or.inr (Or.inl rfl)
      · exact Or.inr (Or.inr ⟨m2, hm2, hu⟩)

theorem processWeek_eq (ws : ScoreMap) (w : Nat) :
    ∀ week : Week,
      (∀ u ∈ weekTeams week, ∃ s, scoreAt ws u w = some s) →
      ∃ eff : Team → TeamRec → TeamRec,
        (∀ recs, processWeek ws w recs week =
          some (recs.map fun p => (p.1, eff p.1 p.2))) ∧
        (∀ k r, (eff k r).points = r.points) ∧
        (∀ k r, sumWLT (eff k r) = sumWLT r + occCount k (weekTeams week)) ∧
        (∀ k r, occCount k (weekTeams week) = 0 → eff k r = r)
  | [] => by
    intro _
    refine ⟨fun _ r => r, fun recs => ?_, fun k r => rfl, fun k r => by
      simp [weekTeams, occCount, sumWLT], fun k r _ => rfl⟩
    simp [processWeek]
  | m :: rest => by
    intro hsc
    have hm1 : m.1 ∈ weekTeams (m :: rest) := by simp [weekTeams]
    have hm2 : m.2 ∈ weekTeams (m :: rest) := by simp [weekTeams]
    obtain ⟨sa, ha⟩ := hsc m.1 hm1
    obtain ⟨sb, hb⟩ := hsc m.2 hm2
    have hrest : ∀ u ∈ weekTeams rest, ∃ s, scoreAt ws u w = some s := by
      intro u hu
      exact hsc u (by simp [weekTeams, hu])
    obtain ⟨eff2, heq2, hpts2, hsum2, hid2⟩ := processWeek_eq ws w rest hrest
    refine ⟨fun k r => eff2 k (matchEffect m sa sb k r), ?_, ?_, ?_, ?_⟩
    · intro recs
      have hstep := processMatchup_eq ws w m sa sb ha hb recs
      rw [processWeek, hstep]
      show processWeek ws w (recs.map fun p => (p.1, matchEffect m sa sb p.1 p.2)) rest = _
      rw [heq2, List.map_map]
      rfl
    · intro k r
      rw [hpts2, matchEffect_points]
    · intro k r
      rw [hsum2, matchEffect_sumWLT, occCount_weekTeams_cons]
      omega
    · intro k r h0
      rw [occCount_weekTeams_cons] at h0
      have hpc : pairCount k m = 0 := by omega
      have hrc : occCount k (weekTeams rest) = 0 := by omega
      have hk1 : k ≠ m.1 := by
        intro he
        simp [pairCount, he] at hpc
      have hk2 : k ≠ m.2 := by
        intro he
        simp [pairCount, he] at hpc
      show eff2 k (matchEffect m sa sb k r) = r
      rw [matchEffect_of_absent m sa sb k r hk1 hk2, hid2 k r hrc]

theorem ne_of_occCount_zero (t : Team) (l : List Team) (h : occCount t l = 0) :
    ∀ u ∈ l, u ≠ t := by
  intro u hu he
  subst he
  rw [occCount_eq_count] at h
  have := List.count_pos_iff.mpr hu
  omega

theorem processWeek_dominant (ws : ScoreMap) (w : Nat) (t : Team) (st : Rat)
    (hst : scoreAt ws t w = some st) :
    ∀ week : Week,
      occCount t (weekTeams week) = 1 →
      (∀ u ∈ weekTeams week, u ≠ t → ∃ su, scoreAt ws u w = some su ∧ su < st) →
      ∀ recs recs2, processWeek ws w recs week = some recs2 →
        ∀ j, (hj : j < recs.length) → (hj2 : j < recs2.length) →
          recs[j].1 = t → recs2[j].2.wins = recs[j].2.wins + 1
  | [] => by
    intro hcount
    simp [weekTeams, occCount] at hcount
  | m :: rest => by
    intro hcount hlt recs recs2 hproc j hj hj2 hjt
    have hm1mem : m.1 ∈ weekTeams (m :: rest) := by simp [weekTeams]
    have hm2mem : m.2 ∈ weekTeams (m :: rest) := by simp [weekTeams]
    rw [occCount_weekTeams_cons] at hcount
    -- scores of the two teams of the head matchup
    have hsa : ∃ sa, scoreAt ws m.1 w = some sa ∧ (m.1 ≠ t → sa < st) := by
      by_cases hm1 : m.1 = t
      · exact ⟨st, hm1 ▸ hst, fun hc => absurd hm1 hc⟩
      · obtain ⟨sa, h1, h2⟩ := hlt m.1 hm1mem hm1
        exact ⟨sa, h1, fun _ => h2⟩
    have hsb : ∃ sb, scoreAt ws m.2 w = some sb ∧ (m.2 ≠ t → sb < st) := by
      by_cases hm2 : m.2 = t
      · exact ⟨st, hm2 ▸ hst, fun hc => absurd hm2 hc⟩
      · obtain ⟨sb, h1, h2⟩ := hlt m.2 hm2mem hm2
        exact ⟨sb, h1, fun _ => h2⟩
    obtain ⟨sa, ha, hsa2⟩ := hsa
    obtain ⟨sb, hb, hsb2⟩ := hsb
    have hstep := processMatchup_eq ws w m sa sb ha hb recs
    rw [processWeek, hstep] at hproc
    have hmid : processWeek ws w
        (recs.map fun p => (p.1, matchEffect m sa sb p.1 p.2)) rest = some recs2 :=
      hproc
    have hjmid : j < (recs.map fun p => (p.1, matchEffect m sa sb p.1 p.2)).length := by
      simpa using hj
    have hmidj : (recs.map fun p => (p.1, matchEffect m sa sb p.1 p.2))[j] =
        (recs[j].1, matchEffect m sa sb recs[j].1 recs[j].2) := by
      simp
    by_cases hpm : t = m.1 ∨ t = m.2
    · -- the head matchup is the one containing t
      have hge : 1 ≤ pairCount t m := by
        unfold pairCount
        rcases hpm with h | h
        · rw [if_pos h]
          omega
        · rw [if_pos h]
          omega
      have hpc1 : pairCount t m = 1 ∧ occCount t (weekTeams rest) = 0 :=
        ⟨by omega, by omega⟩
      have hrest0 := hpc1.2
      -- the rest of the week does not touch the record of t
      have hrestsc : ∀ u ∈ weekTeams rest, ∃ s, scoreAt ws u w = some s := by
        intro u hu
        have hut : u ≠ t := ne_of_occCount_zero t (weekTeams rest) hrest0 u hu
        obtain ⟨su, h1, _⟩ := hlt u (by simp [weekTeams, hu]) hut
        exact ⟨su, h1⟩
      obtain ⟨eff2, heq2, _, _, hid2⟩ := processWeek_eq ws w rest hrestsc
      rw [heq2] at hmid
      have hrecs2 : recs2 =
          (recs.map fun p => (p.1, matchEffect m sa sb p.1 p.2)).map
            fun p => (p.1, eff2 p.1 p.2) := (Option.some.inj hmid).symm
      subst hrecs2
      rw [List.getElem_map, hmidj]
      show (eff2 recs[j].1 (matchEffect m sa sb recs[j].1 recs[j].2)).wins =
        recs[j].2.wins + 1
      rw [hjt, hid2 t _ hrest0]
      -- t wins its own matchup
      rcases hpm with hm1 | hm2
      · have hm2ne : m.2 ≠ t := by
          intro he
          have hp1 := hpc1.1
          have hpc2 : pairCount t m = 2 := by
            unfold pairCount
            rw [if_pos hm1, if_pos he.symm]
          omega
        have hblt : sb < st := hsb2 (fun hc => hm2ne hc)
        exact matchEffect_wins_first m sa sb t recs[j].2
          (by
            have : sa = st := by
              rw [hm1] at hst
              exact (Option.some.inj (ha.symm.trans hst))
            rw [this]
            exact hblt) hm1
      · have hm1ne : m.1 ≠ t := by
          intro he
          have hp1 := hpc1.1
          have hpc2 : pairCount t m = 2 := by
            unfold pairCount
            rw [if_pos he.symm, if_pos hm2]
          omega
        have halt : sa < st := hsa2 (fun hc => hm1ne hc)
        have hsbst : sb = st := by
          rw [hm2] at hst
          exact Option.some.inj (hb.symm.trans hst)
        exact matchEffect_wins_second m sa sb t recs[j].2
          (by rw [hsbst]; exact fun hc => absurd (hc.trans halt) (lt_irrefl _))
          (by rw [hsbst]; exact halt) hm2
    · -- the head matchup does not contain t
      push_neg at hpm
      have hpc0 : pairCount t m = 0 := by
        simp [pairCount, hpm.1, hpm.2]
      have hrest1 : occCount t (weekTeams rest) = 1 := by omega
      have hrestlt : ∀ u ∈ weekTeams rest, u ≠ t →
          ∃ su, scoreAt ws u w = some su ∧ su < st := by
        intro u hu hut
        exact hlt u (by simp [weekTeams, hu]) hut
      have := processWeek_dominant ws w t st hst rest hrest1 hrestlt
        (recs.map fun p => (p.1, matchEffect m sa sb p.1 p.2)) recs2 hmid
        j hjmid hj2
      rw [hmidj] at this
      have hwins := this hjt
      have heff : matchEffect m sa sb recs[j].1 recs[j].2 = recs[j].2 :=
        matchEffect_of_absent m sa sb recs[j].1 recs[j].2
          (by rw [hjt]; exact fun he => hpm.1 he)
          (by rw [hjt]; exact fun he => hpm.2 he)
    -- combine
      rw [heff] at hwins
      exact hwins

/-! ## Lemmas: a whole schedule as a pure per-key effect -/

theorem processSchedule_eq (ws : ScoreMap) :
    ∀ (sched : Schedule) (w0 : Nat),
      (∀ wk ∈ sched, ∀ u ∈ weekTeams wk,
        ∃ l, lookupQ ws u = some l ∧ w0 + sched.length ≤ l.length) →
      ∃ eff : Team → TeamRec → TeamRec,
        (∀ recs, processSchedule ws w0 recs sched =
          some (recs.map fun p => (p.1, eff p.1 p.2))) ∧
        (∀ k r, (eff k r).points = r.points) ∧
        (∀ k r, sumWLT (eff k r) = sumWLT r + schedCount k sched) ∧
        (∀ k r, schedCount k sched = 0 → eff k r = r)
  | [], w0 => by
    intro _
    refine ⟨fun _ r => r, fun recs => by simp [processSchedule], fun k r => rfl,
      fun k r => by simp [schedCount], fun k r _ => rfl⟩
  | wk :: rest, w0 => by
    intro hsc
    have hwk : ∀ u ∈ weekTeams wk, ∃ s, scoreAt ws u w0 = some s := by
      intro u hu
      obtain ⟨l, hl, hlen⟩ := hsc wk (List.mem_cons_self wk rest) u hu
      have hw0 : w0 < l.length := by
        simp at hlen
        omega
      exact ⟨l[w0], by rw [scoreAt, hl]; exact List.getElem?_eq_getElem hw0⟩
    obtain ⟨eff1, heq1, hpts1, hsum1, hid1⟩ := processWeek_eq ws w0 wk hwk
    have hscr : ∀ wk2 ∈ rest, ∀ u ∈ weekTeams wk2,
        ∃ l, lookupQ ws u = some l ∧ (w0 + 1) + rest.length ≤ l.length := by
      intro wk2 hwk2 u hu
      obtain ⟨l, hl, hlen⟩ := hsc wk2 (List.mem_cons_of_mem wk hwk2) u hu
      refine ⟨l, hl, ?_⟩
      simp at hlen
      omega
    obtain ⟨eff2, heq2, hpts2, hsum2, hid2⟩ := processSchedule_eq ws rest (w0 + 1) hscr
    refine ⟨fun k r => eff2 k (eff1 k r), ?_, ?_, ?_, ?_⟩
    · intro recs
      rw [processSchedule, heq1 recs]
      show processSchedule ws (w0 + 1) (recs.map fun p => (p.1, eff1 p.1 p.2)) rest = _
      rw [heq2, List.map_map]
      rfl
    · intro k r
      show (eff2 k (eff1 k r)).points = r.points
      rw [hpts2, hpts1]
    · intro k r
      show sumWLT (eff2 k (eff1 k r)) = sumWLT r + schedCount k (wk :: rest)
      rw [hsum2, hsum1, schedCount]
      omega
    · intro k r h0
      rw [schedCount] at h0
      show eff2 k (eff1 k r) = r
      rw [hid1 k r (by omega), hid2 k r (by omega)]

theorem processSchedule_dominant (ws : ScoreMap) (t : Team) :
    ∀ (sched : Schedule) (w0 : Nat) (lt : List Rat),
      lookupQ ws t = some lt →
      w0 + sched.length ≤ lt.length →
      (∀ wk ∈ sched, occCount t (weekTeams wk) = 1) →
      (∀ wk ∈ sched, ∀ u ∈ weekTeams wk, u ≠ t →
        ∃ lu, lookupQ ws u = some lu ∧ w0 + sched.length ≤ lu.length ∧
          ∀ i, w0 ≤ i → i < w0 + sched.length →
            lu.getD i 0 < lt.getD i 0) →
      ∀ recs recs2, processSchedule ws w0 recs sched = some recs2 →
        ∀ j, (hj : j < recs.length) → (hj2 : j < recs2.length) →
          recs[j].1 = t → recs2[j].2.wins = recs[j].2.wins + sched.length
  | [], w0, lt => by
    intro _ _ _ _ recs recs2 hproc j hj hj2 hjt
    have : recs = recs2 := Option.some.inj hproc
    subst this
    simp
  | wk :: rest, w0, lt => by
    intro ht hlen hcount hdom recs recs2 hproc j hj hj2 hjt
    have hw0lt : w0 < lt.length := by
      simp at hlen
      omega
    have hgd : lt.getD w0 0 = lt[w0] := by
      rw [List.getD_eq_getElem?_getD, List.getElem?_eq_getElem hw0lt]
      rfl
    have hst : scoreAt ws t w0 = some (lt.getD w0 0) := by
      simp only [scoreAt, ht]
      rw [List.getElem?_eq_getElem hw0lt, hgd]
    have hwkmem : wk ∈ wk :: rest := List.mem_cons_self wk rest
    have hwk : ∀ u ∈ weekTeams wk, ∃ s, scoreAt ws u w0 = some s := by
      intro u hu
      by_cases hut : u = t
      · exact ⟨lt.getD w0 0, hut ▸ hst⟩
      · obtain ⟨lu, hlu, hlulen, _⟩ := hdom wk hwkmem u hu hut
        have hw0lu : w0 < lu.length := by
          simp at hlulen
          omega
        exact ⟨lu[w0], by rw [scoreAt, hlu]; exact List.getElem?_eq_getElem hw0lu⟩
    obtain ⟨eff1, heq1, hpts1, hsum1, hid1⟩ := processWeek_eq ws w0 wk hwk
    have hproc2 : processSchedule ws (w0 + 1)
        (recs.map fun p => (p.1, eff1 p.1 p.2)) rest = some recs2 := by
      rw [processSchedule, heq1 recs] at hproc
      exact hproc
    have hmid := heq1 recs
    -- the head week gives the dominant team exactly one more win
    have hdomwk : ∀ u ∈ weekTeams wk, u ≠ t →
        ∃ su, scoreAt ws u w0 = some su ∧ su < lt.getD w0 0 := by
      intro u hu hut
      obtain ⟨lu, hlu, hlulen, hcomp⟩ := hdom wk hwkmem u hu hut
      have hw0lu : w0 < lu.length := by
        simp at hlulen
        omega
      have hgdu : lu.getD w0 0 = lu[w0] := by
        rw [List.getD_eq_getElem?_getD, List.getElem?_eq_getElem hw0lu]
        rfl
      refine ⟨lu.getD w0 0, ?_,
        hcomp w0 (Nat.le_refl w0) (by simp only [List.length_cons]; omega)⟩
      simp only [scoreAt, hlu]
      rw [List.getElem?_eq_getElem hw0lu, hgdu]
    have hjmid : j < (recs.map fun p => (p.1, eff1 p.1 p.2)).length := by
      simpa using hj
    have hwin1 := processWeek_dominant ws w0 t (lt.getD w0 0) hst wk
      (hcount wk hwkmem) hdomwk recs (recs.map fun p => (p.1, eff1 p.1 p.2))
      hmid j hj hjmid hjt
    have hmidj : (recs.map fun p => (p.1, eff1 p.1 p.2))[j] =
        (recs[j].1, eff1 recs[j].1 recs[j].2) := by
      simp
    -- recurse on the remaining weeks
    have hwin2 := processSchedule_dominant ws t rest (w0 + 1) lt ht
      (by simp at hlen ⊢; omega)
      (fun wk2 h => hcount wk2 (List.mem_cons_of_mem wk h))
      (by
        intro wk2 h u hu hut
        obtain ⟨lu, hlu, hlulen, hcomp⟩ := hdom wk2 (List.mem_cons_of_mem wk h) u hu hut
        refine ⟨lu, hlu, by simp at hlulen ⊢; omega, ?_⟩
        intro i hi1 hi2
        exact hcomp i (by omega) (by simp; omega))
      (recs.map fun p => (p.1, eff1 p.1 p.2)) recs2 hproc2 j hjmid hj2
      (by rw [hmidj]; exact hjt)
    rw [hmidj] at hwin2 hwin1
    have hw1 : (eff1 recs[j].1 recs[j].2).wins = recs[j].2.wins + 1 := hwin1
    have hw2 : recs2[j].2.wins = (eff1 recs[j].1 recs[j].2).wins + rest.length := hwin2
    show recs2[j].2.wins = recs[j].2.wins + (rest.length + 1)
    omega

/-! ## Lemmas: standings over perfect-matching schedules -/

theorem schedCount_eq_length (k : Team) (L : List Team) (hnd : L.Nodup)
    (hk : k ∈ L) :
    ∀ sched : Schedule, (∀ wk ∈ sched, (weekTeams wk).Perm L) →
      schedCount k sched = sched.length
  | [] => by intro _; rfl
  | wk :: rest => by
    intro hmatch
    rw [schedCount, occCount_eq_count,
      (hmatch wk (List.mem_cons_self wk rest)).count_eq,
      List.count_eq_one_of_mem hnd hk,
      schedCount_eq_length k L hnd hk rest
        (fun wk2 h => hmatch wk2 (List.mem_cons_of_mem wk h))]
    simp only [List.length_cons]
    omega

theorem sum_lt_sum_dom :
    ∀ (lu lt : List Rat), lu.length = lt.length → 1 ≤ lt.length →
      (∀ w, w < lt.length → lu.getD w 0 < lt.getD w 0) → lu.sum < lt.sum
  | [], lt => by
    intro hlen h1 _
    rw [← hlen] at h1
    simp at h1
  | b :: lu2, [] => by
    intro hlen h1 _
    simp at h1
  | b :: lu2, a :: lt2 => by
    intro hlen h1 hcomp
    have hba : b < a := by
      have := hcomp 0 (by simp)
      simpa using this
    match lt2, lu2, hlen with
    | [], [], _ => simpa using hba
    | c :: lt3, [], hlen => simp at hlen
    | [], d :: lu3, hlen => simp at hlen
    | c :: lt3, d :: lu3, hlen =>
      have htail : (d :: lu3).sum < (c :: lt3).sum := by
        refine sum_lt_sum_dom (d :: lu3) (c :: lt3) (by simpa using hlen)
          (by simp) ?_
        intro w hw
        have := hcomp (w + 1) (by simpa using hw)
        simpa using this
      show b + (d :: lu3).sum < a + (c :: lt3).sum
      exact add_lt_add hba htail

/-- Instantiation of the score-availability hypothesis from equal-length
score lists and perfect-matching weeks. -/
theorem matching_scores (ws : ScoreMap) (numWeeks : Nat) (sched : Schedule)
    (hlens : ∀ p ∈ ws, p.2.length = numWeeks)
    (hslen : sched.length = numWeeks)
    (hmatch : ∀ wk ∈ sched, (weekTeams wk).Perm (ws.map Prod.fst)) :
    ∀ wk ∈ sched, ∀ u ∈ weekTeams wk,
      ∃ l, lookupQ ws u = some l ∧ 0 + sched.length ≤ l.length := by
  intro wk hwk u hu
  have hmem : u ∈ ws.map Prod.fst := ((hmatch wk hwk).mem_iff).mp hu
  obtain ⟨l, hl⟩ := lookupQ_isSome_of_mem ws u hmem
  refine ⟨l, hl, ?_⟩
  rw [hlens (u, l) (lookupQ_mem ws u l hl), hslen]
  omega

theorem standings_core (ws : ScoreMap) (numWeeks : Nat) (sched : Schedule)
    (hnd : (ws.map Prod.fst).Nodup)
    (hlens : ∀ p ∈ ws, p.2.length = numWeeks)
    (hslen : sched.length = numWeeks)
    (hmatch : ∀ wk ∈ sched, (weekTeams wk).Perm (ws.map Prod.fst)) :
    ∃ recsF, processSchedule ws 0 (initRecords ws) sched = some recsF ∧
      recsF.length = ws.length ∧
      ∀ j, (hj : j < ws.length) → (hj2 : j < recsF.length) →
        recsF[j].1 = ws[j].1 ∧ recsF[j].2.points = ws[j].2.sum ∧
        sumWLT recsF[j].2 = numWeeks := by
  obtain ⟨eff, heq, hpts, hsum, _⟩ := processSchedule_eq ws sched 0
    (matching_scores ws numWeeks sched hlens hslen hmatch)
  refine ⟨(initRecords ws).map fun p => (p.1, eff p.1 p.2), heq (initRecords ws),
    by simp [initRecords], ?_⟩
  intro j hj hj2
  have hinitlen : j < (initRecords ws).length := by simp [initRecords, hj]
  have hinit : (initRecords ws)[j] = (ws[j].1, (⟨0, 0, 0, ws[j].2.sum⟩ : TeamRec)) := by
    simp [initRecords]
  have hgete : ((initRecords ws).map fun p => (p.1, eff p.1 p.2))[j] =
      ((initRecords ws)[j].1, eff (initRecords ws)[j].1 (initRecords ws)[j].2) := by
    simp
  rw [hgete, hinit]
  refine ⟨rfl, ?_, ?_⟩
  · show (eff ws[j].1 ⟨0, 0, 0, ws[j].2.sum⟩).points = ws[j].2.sum
    rw [hpts]
  · show sumWLT (eff ws[j].1 ⟨0, 0, 0, ws[j].2.sum⟩) = numWeeks
    rw [hsum]
    have hkey : ws[j].1 ∈ ws.map Prod.fst := by
      exact List.mem_map_of_mem Prod.fst (List.getElem_mem hj)
    rw [schedCount_eq_length ws[j].1 (ws.map Prod.fst) hnd hkey sched hmatch, ← hslen]
    simp [sumWLT]

theorem standings_core_dominant (ws : ScoreMap) (numWeeks : Nat) (sched : Schedule)
    (t : Team)
    (hnd : (ws.map Prod.fst).Nodup)
    (hlens : ∀ p ∈ ws, p.2.length = numWeeks)
    (hslen : sched.length = numWeeks)
    (hmatch : ∀ wk ∈ sched, (weekTeams wk).Perm (ws.map Prod.fst))
    (hdom : dominates ws t numWeeks) :
    ∀ recsF, processSchedule ws 0 (initRecords ws) sched = some recsF →
      ∀ j, (hj : j < ws.length) → (hj2 : j < recsF.length) →
        ws[j].1 = t → recsF[j].2.wins = numWeeks := by
  intro recsF hproc j hj hj2 hjt
  obtain ⟨lt, hlt⟩ := lookupQ_isSome_of_mem ws t hdom.1
  have hltlen : lt.length = numWeeks := hlens (t, lt) (lookupQ_mem ws t lt hlt)
  have hcount : ∀ wk ∈ sched, occCount t (weekTeams wk) = 1 := by
    intro wk hwk
    rw [occCount_eq_count, (hmatch wk hwk).count_eq,
      List.count_eq_one_of_mem hnd hdom.1]
  have hdomsc : ∀ wk ∈ sched, ∀ u ∈ weekTeams wk, u ≠ t →
      ∃ lu, lookupQ ws u = some lu ∧ 0 + sched.length ≤ lu.length ∧
        ∀ i, 0 ≤ i → i < 0 + sched.length → lu.getD i 0 < lt.getD i 0 := by
    intro wk hwk u hu hut
    have hmem : u ∈ ws.map Prod.fst := ((hmatch wk hwk).mem_iff).mp hu
    obtain ⟨lu, hlu⟩ := lookupQ_isSome_of_mem ws u hmem
    have hmemu : (u, lu) ∈ ws := lookupQ_mem ws u lu hlu
    refine ⟨lu, hlu, by rw [hlens (u, lu) hmemu, hslen]; omega, ?_⟩
    intro i _ hi
    have hiw : i < numWeeks := by
      rw [← hslen]
      omega
    have := hdom.2 (u, lu) hmemu hut i hiw
    rw [hlt] at this
    simpa using this
  have hinitj : j < (initRecords ws).length := by simp [initRecords, hj]
  have hwins := processSchedule_dominant ws t sched 0 lt hlt
    (by rw [hltlen, hslen]; omega) hcount hdomsc
    (initRecords ws) recsF hproc j hinitj hj2
    (by simp [initRecords, hjt])
  rw [hwins]
  have hinit : (initRecords ws)[j] = (ws[j].1, (⟨0, 0, 0, ws[j].2.sum⟩ : TeamRec)) := by
    simp [initRecords]
  rw [hinit, ← hslen]
  simp

theorem lookupQ_of_mem_nodup {β : Type} :
    ∀ ws : List (Team × β), (ws.map Prod.fst).Nodup →
      ∀ p ∈ ws, lookupQ ws p.1 = some p.2
  | [], _, p => by simp
  | q :: rest, hnd, p => by
    intro hp
    have hnd' : (q.1 :: rest.map Prod.fst).Nodup := hnd
    have hq1 : q.1 ∉ rest.map Prod.fst := (List.nodup_cons.mp hnd').1
    have hnd2 : (rest.map Prod.fst).Nodup := (List.nodup_cons.mp hnd').2
    rcases List.mem_cons.mp hp with rfl | hp2
    · rw [lookupQ, if_pos rfl]
    · have hne : q.1 ≠ p.1 := fun he =>
        hq1 (he ▸ List.mem_map_of_mem Prod.fst hp2)
      rw [lookupQ, if_neg hne]
      exact lookupQ_of_mem_nodup rest hnd2 p hp2

theorem standings_head_dominant (ws : ScoreMap) (numWeeks : Nat) (sched : Schedule)
    (t : Team)
    (hnd : (ws.map Prod.fst).Nodup)
    (hlens : ∀ p ∈ ws, p.2.length = numWeeks)
    (hslen : sched.length = numWeeks)
    (hmatch : ∀ wk ∈ sched, (weekTeams wk).Perm (ws.map Prod.fst))
    (hdom : dominates ws t numWeeks)
    (hw1 : 1 ≤ numWeeks) :
    ∃ rowT xs, calculate_standings ws sched = some (rowT :: xs) ∧
      rowT.team = t ∧ rowT.wins = numWeeks ∧
      ∀ r ∈ rowT :: xs, r.team = t → r = rowT := by
  obtain ⟨recsF, hproc, hlenF, hfacts⟩ :=
    standings_core ws numWeeks sched hnd hlens hslen hmatch
  have hdomw := standings_core_dominant ws numWeeks sched t hnd hlens hslen hmatch
    hdom recsF hproc
  set mapped := recsF.map fun p =>
    (⟨p.1, p.2.wins, p.2.losses, p.2.points⟩ : StandRow) with hmapped
  have hrows : calculate_standings ws sched =
      some (List.insertionSort standGE mapped) := by
    simp only [calculate_standings, hproc]
  -- teams of mapped are exactly the keys of ws
  have hkeysF : recsF.map Prod.fst = ws.map Prod.fst := by
    apply List.ext_getElem (by simp [hlenF])
    intro j h1 h2
    have hj : j < ws.length := by simpa using h2
    have hj2 : j < recsF.length := by simpa using h1
    have := (hfacts j hj hj2).1
    simpa using this
  have hteams : mapped.map StandRow.team = ws.map Prod.fst := by
    rw [hmapped, List.map_map]
    exact hkeysF
  have htnodup : (mapped.map StandRow.team).Nodup := by
    rw [hteams]; exact hnd
  have hinj := List.inj_on_of_nodup_map htnodup
  -- the row of team t
  obtain ⟨i, hi, hit⟩ := List.mem_iff_getElem.mp hdom.1
  have hiw : i < ws.length := by simpa using hi
  have hwsit : ws[i].1 = t := by
    have : (ws.map Prod.fst)[i] = ws[i].1 := by simp
    rw [← this, hit]
  have hiF : i < recsF.length := by omega
  have him : i < mapped.length := by simp [hmapped, hiF]
  have hmappedi : mapped[i] =
      ⟨recsF[i].1, recsF[i].2.wins, recsF[i].2.losses, recsF[i].2.points⟩ := by
    simp [hmapped]
  have hrowTmem : mapped[i] ∈ mapped := List.getElem_mem him
  have hrowTteam : (mapped[i]).team = t := by
    rw [hmappedi]
    show recsF[i].1 = t
    rw [(hfacts i hiw hiF).1, hwsit]
  have hrowTwins : (mapped[i]).wins = numWeeks := by
    rw [hmappedi]
    exact hdomw i hiw hiF hwsit
  have hrowTpts : (mapped[i]).points = ws[i].2.sum := by
    rw [hmappedi]
    exact (hfacts i hiw hiF).2.1
  -- t's score list
  obtain ⟨lt, hlt⟩ := lookupQ_isSome_of_mem ws t hdom.1
  have hltws : lt = ws[i].2 := by
    have := lookupQ_of_mem_nodup ws hnd ws[i] (List.getElem_mem hiw)
    rw [hwsit] at this
    rw [this] at hlt
    exact (Option.some.inj hlt).symm
  -- every other row is strictly below the row of t
  have hstrict : ∀ r ∈ mapped, r.team ≠ t →
      r.wins ≤ numWeeks ∧ r.points < (mapped[i]).points := by
    intro r hr hrt
    obtain ⟨j, hjm, hjr⟩ := List.mem_iff_getElem.mp hr
    have hjF : j < recsF.length := by simpa [hmapped] using hjm
    have hjw : j < ws.length := by omega
    have hmappedj : mapped[j] =
        ⟨recsF[j].1, recsF[j].2.wins, recsF[j].2.losses, recsF[j].2.points⟩ := by
      simp [hmapped]
    have hrteam : r.team = ws[j].1 := by
      rw [← hjr, hmappedj]
      exact (hfacts j hjw hjF).1
    have hjne : ws[j].1 ≠ t := hrteam ▸ hrt
    constructor
    · rw [← hjr, hmappedj]
      show recsF[j].2.wins ≤ numWeeks
      have := (hfacts j hjw hjF).2.2
      rw [sumWLT] at this
      omega
    · rw [← hjr, hmappedj, hrowTpts]
      show recsF[j].2.points < ws[i].2.sum
      rw [(hfacts j hjw hjF).2.1]
      have hlenj : ws[j].2.length = numWeeks :=
        hlens ws[j] (List.getElem_mem hjw)
      have hleni : ws[i].2.length = numWeeks :=
        hlens ws[i] (List.getElem_mem hiw)
      refine sum_lt_sum_dom ws[j].2 ws[i].2 (by omega) (by omega) ?_
      intro w hw
      have := hdom.2 ws[j] (List.getElem_mem hjw) hjne w (by omega)
      rw [hlt] at this
      simpa [hltws] using this
  -- the sorted list starts with the row of t
  have hperm := List.perm_insertionSort standGE mapped
  have hsort := List.sorted_insertionSort standGE mapped
  have hrowTrows : mapped[i] ∈ List.insertionSort standGE mapped :=
    hperm.mem_iff.mpr hrowTmem
  match hrec : List.insertionSort standGE mapped with
  | [] =>
    rw [hrec] at hrowTrows
    simp at hrowTrows
  | x :: xs =>
    rw [hrec] at hrowTrows hperm hsort
    have hxmem : x ∈ mapped := hperm.mem_iff.mp (List.mem_cons_self x xs)
    have hxrowT : x = mapped[i] := by
      by_cases hxt : x.team = t
      · exact hinj hxmem hrowTmem (by rw [hxt, hrowTteam])
      · exfalso
        obtain ⟨hwle, hplt⟩ := hstrict x hxmem hxt
        have hrowTxs : mapped[i] ∈ xs := by
          rcases List.mem_cons.mp hrowTrows with he | hxs
          · exact absurd (he ▸ hrowTteam) hxt
          · exact hxs
        have hge : standGE x mapped[i] :=
          (List.sorted_cons.mp hsort).1 (mapped[i]) hrowTxs
        rcases hge with hlt2 | ⟨hweq, hple⟩
        · rw [hrowTwins] at hlt2
          omega
        · exact absurd (lt_of_le_of_lt hple hplt) (lt_irrefl _)
    refine ⟨mapped[i], xs, by rw [hrows, hrec, hxrowT], hrowTteam, hrowTwins, ?_⟩
    intro r hr hrteam
    rw [← hxrowT] at hr ⊢
    have hrm : r ∈ mapped := by
      rw [← hrec] at hr
      exact hperm.mem_iff.mp (hrec ▸ hr)
    exact hinj hrm hxmem (by rw [hrteam, hxrowT, hrowTteam])

/-! ## Lemmas: the schedule sampler and the Monte Carlo loop -/

theorem generate_round_robin_week_perm (teams : List Team) (rng : Nat)
    (ms : List (Team × Team)) (rng2 : Nat)
    (h : generate_round_robin_week teams rng = some (ms, rng2)) :
    (weekTeams ms).Perm teams := by
  have h2 : Option.map (fun ms0 => (ms0, (shuffle teams rng).2))
      (pairUp (shuffle teams rng).1) = some (ms, rng2) := h
  cases hp : pairUp (shuffle teams rng).1 with
  | none =>
    rw [hp] at h2
    simp at h2
  | some ms2 =>
    rw [hp] at h2
    simp at h2
    rw [← h2.1, pairUp_weekTeams (shuffle teams rng).1 ms2 hp]
    exact shuffle_fst_perm teams rng

theorem generate_round_robin_week_odd (teams : List Team) (rng : Nat)
    (h : teams.length % 2 = 1) :
    generate_round_robin_week teams rng = none := by
  have hlen : (shuffle teams rng).1.length = teams.length :=
    (shuffle_fst_perm teams rng).length_eq
  show Option.map (fun ms0 => (ms0, (shuffle teams rng).2))
    (pairUp (shuffle teams rng).1) = none
  rw [pairUp_odd (shuffle teams rng).1 (by rw [hlen]; exact h)]
  rfl

theorem generate_random_schedule_spec (teams : List Team) :
    ∀ (n rng : Nat) (sched : Schedule) (rng2 : Nat),
      generate_random_schedule teams n rng = some (sched, rng2) →
      sched.length = n ∧ ∀ wk ∈ sched, (weekTeams wk).Perm teams := by
  intro n
  induction n with
  | zero =>
    intro rng sched rng2 h
    simp [generate_random_schedule] at h
    rw [h.1]
    exact ⟨rfl, by simp⟩
  | succ n ih =>
    intro rng sched rng2 h
    rw [generate_random_schedule] at h
    cases hw : generate_round_robin_week teams rng with
    | none =>
      rw [hw] at h
      simp at h
    | some p =>
      rw [hw] at h
      have h2 : Option.map (fun q => (p.1 :: q.1, q.2))
          (generate_random_schedule teams n p.2) = some (sched, rng2) := h
      cases hr : generate_random_schedule teams n p.2 with
      | none =>
        rw [hr] at h2
        simp at h2
      | some q =>
        rw [hr] at h2
        simp at h2
        obtain ⟨hq, hperm⟩ := ih p.2 q.1 q.2 (by rw [hr])
        rw [← h2.1]
        refine ⟨by simp [hq], ?_⟩
        intro wk hwk
        rcases List.mem_cons.mp hwk with rfl | hwk2
        · exact generate_round_robin_week_perm teams rng p.1 p.2 (by rw [hw])
        · exact hperm wk hwk2

theorem recordPlayoffs_counts (t : Team) :
    ∀ (pteams : List Team) (acc : SimAcc),
      (recordPlayoffs acc pteams).playoff_counts t =
        acc.playoff_counts t + occCount t pteams ∧
      (recordPlayoffs acc pteams).championship_counts t =
        acc.championship_counts t
  | [], acc => by simp [recordPlayoffs, occCount]
  | u :: rest, acc => by
    have ih := recordPlayoffs_counts t rest
      { acc with playoff_counts := bump acc.playoff_counts u }
    constructor
    · show (recordPlayoffs _ rest).playoff_counts t = _
      rw [ih.1]
      show bump acc.playoff_counts u t + occCount t rest = _
      rw [occCount]
      unfold bump
      by_cases h : t = u
      · rw [if_pos h, if_pos h]
        omega
      · rw [if_neg h, if_neg h]
        omega
    · show (recordPlayoffs _ rest).championship_counts t = _
      rw [ih.2]

theorem recordPlacements_champ_ge2 (t : Team) :
    ∀ (l : List StandRow) (acc : SimAcc) (p : Nat), 2 ≤ p →
      (recordPlacements acc p l).championship_counts t =
        acc.championship_counts t
  | [], acc, p => by intro _; rfl
  | row :: rest, acc, p => by
    intro hp
    rw [recordPlacements,
      recordPlacements_champ_ge2 t rest (placeUpd acc p row) (p + 1) (by omega)]
    show (if p = 1 then bump acc.championship_counts row.team
      else acc.championship_counts) t = acc.championship_counts t
    rw [if_neg (by omega)]

theorem recordPlacements_playoff (t : Team) :
    ∀ (l : List StandRow) (acc : SimAcc) (p : Nat),
      (recordPlacements acc p l).playoff_counts t = acc.playoff_counts t
  | [], acc, p => rfl
  | row :: rest, acc, p => by
    rw [recordPlacements, recordPlacements_playoff t rest (placeUpd acc p row) (p + 1)]
    rfl

theorem recordPlacements_champ_head (t : Team) (acc : SimAcc) (x : StandRow)
    (xs : List StandRow) :
    (recordPlacements acc 1 (x :: xs)).championship_counts t =
      acc.championship_counts t + (if t = x.team then 1 else 0) := by
  rw [recordPlacements, recordPlacements_champ_ge2 t xs (placeUpd acc 1 x) 2 (by omega)]
  show (if (1 : Nat) = 1 then bump acc.championship_counts x.team
    else acc.championship_counts) t = _
  rw [if_pos rfl]
  unfold bump
  by_cases h : t = x.team
  · rw [if_pos h, if_pos h]
  · rw [if_neg h, if_neg h]
    omega

theorem runTrial_dominant (ws : ScoreMap) (numWeeks slots : Nat) (t : Team)
    (hnd : (ws.map Prod.fst).Nodup)
    (hlens : ∀ p ∈ ws, p.2.length = numWeeks)
    (hdom : dominates ws t numWeeks)
    (hw1 : 1 ≤ numWeeks) (hs1 : 1 ≤ slots) :
    ∀ (acc : SimAcc) (rng : Nat) (acc2 : SimAcc) (rng2 : Nat),
      runTrial ws numWeeks slots acc rng = some (acc2, rng2) →
      acc2.playoff_counts t = acc.playoff_counts t + 1 ∧
      acc2.championship_counts t = acc.championship_counts t + 1 := by
  intro acc rng acc2 rng2 h
  unfold runTrial at h
  cases hg : generate_random_schedule (ws.map Prod.fst) numWeeks rng with
  | none =>
    rw [hg] at h
    simp at h
  | some sr =>
    rw [hg] at h
    obtain ⟨hslen, hmatch⟩ :=
      generate_random_schedule_spec (ws.map Prod.fst) numWeeks rng sr.1 sr.2
        (by rw [hg])
    obtain ⟨rowT, xs, hcalc, hteamT, hwinsT, huniq⟩ :=
      standings_head_dominant ws numWeeks sr.1 t hnd hlens hslen hmatch hdom hw1
    have h2 : (match calculate_standings ws sr.1 with
        | none => none
        | some standings =>
          some (recordPlacements
            (recordPlayoffs acc ((get_playoff_teams standings slots).dedup))
            1 standings, sr.2)) = some (acc2, rng2) := h
    rw [hcalc] at h2
    have h3 : (recordPlacements
        (recordPlayoffs acc ((get_playoff_teams (rowT :: xs) slots).dedup))
        1 (rowT :: xs), sr.2) = (acc2, rng2) := Option.some.inj h2
    have hacc : acc2 = recordPlacements
        (recordPlayoffs acc ((get_playoff_teams (rowT :: xs) slots).dedup))
        1 (rowT :: xs) := (congrArg Prod.fst h3).symm
    have htin : t ∈ (get_playoff_teams (rowT :: xs) slots).dedup := by
      rw [List.mem_dedup]
      unfold get_playoff_teams
      match slots, hs1 with
      | n + 1, _ =>
        rw [List.take_succ_cons]
        exact hteamT ▸ List.mem_map_of_mem StandRow.team (List.mem_cons_self rowT _)
    have hocc : occCount t ((get_playoff_teams (rowT :: xs) slots).dedup) = 1 := by
      rw [occCount_eq_count]
      exact List.count_eq_one_of_mem (List.nodup_dedup _) htin
    have hpl := recordPlayoffs_counts t
      ((get_playoff_teams (rowT :: xs) slots).dedup) acc
    constructor
    · rw [hacc, recordPlacements_playoff, hpl.1, hocc]
    · rw [hacc, recordPlacements_champ_head, hpl.2, if_pos hteamT.symm]

theorem runTrials_dominant (ws : ScoreMap) (numWeeks slots : Nat) (t : Team)
    (hnd : (ws.map Prod.fst).Nodup)
    (hlens : ∀ p ∈ ws, p.2.length = numWeeks)
    (hdom : dominates ws t numWeeks)
    (hw1 : 1 ≤ numWeeks) (hs1 : 1 ≤ slots) :
    ∀ (n : Nat) (acc : SimAcc) (rng : Nat) (accF : SimAcc),
      runTrials ws numWeeks slots n acc rng = some accF →
      accF.playoff_counts t = acc.playoff_counts t + n ∧
      accF.championship_counts t = acc.championship_counts t + n := by
  intro n
  induction n with
  | zero =>
    intro acc rng accF h
    have : acc = accF := Option.some.inj h
    subst this
    exact ⟨rfl, rfl⟩
  | succ n ih =>
    intro acc rng accF h
    rw [runTrials] at h
    cases ht : runTrial ws numWeeks slots acc rng with
    | none =>
      rw [ht] at h
      simp at h
    | some pr =>
      rw [ht] at h
      have hstep := runTrial_dominant ws numWeeks slots t hnd hlens hdom hw1 hs1
        acc rng pr.1 pr.2 (by rw [ht])
      have hrec := ih pr.1 pr.2 accF h
      constructor
      · rw [hrec.1, hstep.1]
        omega
      · rw [hrec.2, hstep.2]
        omega

/-! ## Claim theorems -/

/-- Claim C1 (amended): for a score matrix with at least two teams whose team
t strictly dominates every other team in every one of the numWeeks ≥ 1 weeks,
calculate_standings gives t numWeeks wins under every perfect-matching
schedule, and every completed Monte Carlo run with numTrials ≥ 1 and at least
one playoff slot counts t in the playoffs and in first place in all
numTrials trials.  (The original claim, without the conditions numWeeks ≥ 1
and playoffSlots ≥ 1, is refuted by C1_counterexample.) -/
theorem C1_dominant_team (ws : ScoreMap) (t : Team) (numWeeks : Nat)
    (hnd : (ws.map Prod.fst).Nodup) (hteams : 2 ≤ ws.length)
    (hlens : ∀ p ∈ ws, p.2.length = numWeeks)
    (hdom : dominates ws t numWeeks)
    (hw1 : 1 ≤ numWeeks) :
    (∀ sched : Schedule, sched.length = numWeeks →
      (∀ wk ∈ sched, (weekTeams wk).Perm (ws.map Prod.fst)) →
      ∀ rows, calculate_standings ws sched = some rows →
        ∀ r ∈ rows, r.team = t → r.wins = numWeeks) ∧
    (∀ slots numTrials seed : Nat, 1 ≤ slots → 1 ≤ numTrials →
      ∀ acc, run_monte_carlo ws numWeeks slots numTrials seed = some acc →
        acc.playoff_counts t = numTrials ∧ acc.championship_counts t = numTrials) := by
  constructor
  · intro sched hslen hmatch rows hrows r hr hrt
    obtain ⟨rowT, xs, hcalc, hteamT, hwinsT, huniq⟩ :=
      standings_head_dominant ws numWeeks sched t hnd hlens hslen hmatch hdom hw1
    rw [hcalc] at hrows
    have : rowT :: xs = rows := Option.some.inj hrows
    subst this
    rw [huniq r hr hrt]
    exact hwinsT
  · intro slots numTrials seed hs1 _ acc hacc
    have h := runTrials_dominant ws numWeeks slots t hnd hlens hdom hw1 hs1
      numTrials initAcc seed acc hacc
    constructor
    · rw [h.1]
      show initAcc.playoff_counts t + numTrials = numTrials
      simp [initAcc]
    · rw [h.2]
      show initAcc.championship_counts t + numTrials = numTrials
      simp [initAcc]

/-- Claim C1 counterexample: with two teams, zero weeks of scores and zero
playoff slots, team B vacuously dominates every week, the Monte Carlo run
with one trial completes, yet both its playoff count and its championship
count are 0, not numTrials = 1 (the first placement goes to team A, the
first dict entry, by the stable tie-break, and no team enters an empty
playoff set). -/
theorem C1_counterexample :
    2 ≤ ([(tA, ([] : List Rat)), (tB, [])] : ScoreMap).length ∧
    dominates [(tA, ([] : List Rat)), (tB, [])] tB 0 ∧
    ((run_monte_carlo [(tA, ([] : List Rat)), (tB, [])] 0 0 1 42).map fun a =>
      (a.playoff_counts tB, a.championship_counts tB)) = some (0, 0) ∧
    ((run_monte_carlo [(tA, ([] : List Rat)), (tB, [])] 0 0 1 42).map fun a =>
      (a.playoff_counts tB, a.championship_counts tB)) ≠ some (1, 1) := by
  refine ⟨?_, ?_, ?_, ?_⟩ <;> with_unfolding_all decide

/-- Claim C1 witness: a concrete two-team league with one week in which team
B strictly outscores team A; the one-trial Monte Carlo run (one playoff
slot) counts B in the playoffs and in first place once, and in the standings
of the actual one-week matching B has one win. -/
theorem C1_witness :
    ((run_monte_carlo [(tA, [1]), (tB, [2])] 1 1 1 42).map fun a =>
      (a.playoff_counts tB, a.championship_counts tB)) = some (1, 1) ∧
    (⟨tB, 1, 0, (2 : Rat)⟩ : StandRow).wins = 1 := by
  have h := C1_dominant_team [(tA, [1]), (tB, [2])] tB 1
    (by with_unfolding_all decide) (by with_unfolding_all decide)
    (by with_unfolding_all decide) (by with_unfolding_all decide)
    (by with_unfolding_all decide)
  have hsome : (run_monte_carlo [(tA, [1]), (tB, [2])] 1 1 1 42).isSome = true := by
    with_unfolding_all decide
  obtain ⟨acc, hacc⟩ := Option.isSome_iff_exists.mp hsome
  have h2 := h.2 1 1 42 (by omega) (by omega) acc hacc
  constructor
  · rw [hacc]
    show some (acc.playoff_counts tB, acc.championship_counts tB) = some (1, 1)
    rw [h2.1, h2.2]
  · have hcalc : calculate_standings [(tA, [1]), (tB, [2])] [[(tA, tB)]] =
        some [⟨tB, 1, 0, 2⟩, ⟨tA, 0, 1, 1⟩] := by
      with_unfolding_all decide
    exact h.1 [[(tA, tB)]] (by with_unfolding_all decide)
      (by with_unfolding_all decide) _ hcalc ⟨tB, 1, 0, 2⟩
      (by with_unfolding_all decide) rfl

/-- Claim C3: the concrete four-team, two-week scenario of the spec:
standings rows, ranking order [C, B, A, D], expected wins (4/3, 5/3, 1, 0)
summing to 4, and the two playoff slots going to the set containing exactly
C and B. -/
theorem C3_concrete_scenario :
    calculate_standings wsABCD schedABCD =
      some [⟨tC, 2, 0, 165⟩, ⟨tB, 1, 1, 185⟩, ⟨tA, 1, 1, 160⟩, ⟨tD, 0, 2, 120⟩] ∧
    calculate_expected_wins wsABCD =
      some [(tA, 4/3), (tB, 5/3), (tC, 1), (tD, 0)] ∧
    ((calculate_expected_wins wsABCD).map fun ew => (ew.map Prod.snd).sum) =
      some 4 ∧
    get_playoff_teams
      [⟨tC, 2, 0, 165⟩, ⟨tB, 1, 1, 185⟩, ⟨tA, 1, 1, 160⟩, ⟨tD, 0, 2, 120⟩] 2 =
      [tC, tB] ∧
    ∀ u : Team,
      u ∈ get_playoff_teams
        [⟨tC, 2, 0, 165⟩, ⟨tB, 1, 1, 185⟩, ⟨tA, 1, 1, 160⟩, ⟨tD, 0, 2, 120⟩] 2 ↔
        (u = tC ∨ u = tB) := by
  refine ⟨?_, ?_, ?_, ?_, ?_⟩
  · with_unfolding_all decide
  · with_unfolding_all decide
  · with_unfolding_all decide
  · with_unfolding_all decide
  · intro u
    show u ∈ [tC, tB] ↔ (u = tC ∨ u = tB)
    simp

/-- Claim C4: over any schedule whose weeks are perfect matchings of the
score-matrix teams (numWeeks weeks, score lists of length numWeeks),
calculate_standings succeeds and every record of the records dict satisfies
wins + losses + ties = numWeeks. -/
theorem C4_wins_losses_ties (ws : ScoreMap) (numWeeks : Nat) (sched : Schedule)
    (hnd : (ws.map Prod.fst).Nodup)
    (hlens : ∀ p ∈ ws, p.2.length = numWeeks)
    (hslen : sched.length = numWeeks)
    (hmatch : ∀ wk ∈ sched, (weekTeams wk).Perm (ws.map Prod.fst)) :
    (calculate_standings ws sched).isSome = true ∧
    ∀ recs, processSchedule ws 0 (initRecords ws) sched = some recs →
      ∀ p ∈ recs, p.2.wins + p.2.losses + p.2.ties = numWeeks := by
  obtain ⟨recsF, hproc, hlenF, hfacts⟩ :=
    standings_core ws numWeeks sched hnd hlens hslen hmatch
  constructor
  · simp [calculate_standings, hproc]
  · intro recs hrecs p hp
    rw [hproc] at hrecs
    have : recsF = recs := Option.some.inj hrecs
    subst this
    obtain ⟨j, hj2, hjp⟩ := List.mem_iff_getElem.mp hp
    have hj : j < ws.length := by omega
    have := (hfacts j hj hj2).2.2
    rw [sumWLT] at this
    rw [← hjp]
    exact this

/-- Claim C4 witness: the two-team, one-week league; the records dict entry
of team B is (1, 0, 0) with 1 + 0 + 0 = 1 week. -/
theorem C4_witness :
    (calculate_standings [(tA, [1]), (tB, [2])] [[(tA, tB)]]).isSome = true ∧
    (⟨1, 0, 0, (2 : Rat)⟩ : TeamRec).wins + (⟨1, 0, 0, (2 : Rat)⟩ : TeamRec).losses +
      (⟨1, 0, 0, (2 : Rat)⟩ : TeamRec).ties = 1 := by
  have h := C4_wins_losses_ties [(tA, [1]), (tB, [2])] 1 [[(tA, tB)]]
    (by with_unfolding_all decide) (by with_unfolding_all decide)
    (by with_unfolding_all decide) (by with_unfolding_all decide)
  refine ⟨h.1, ?_⟩
  exact h.2 [(tA, ⟨0, 1, 0, 1⟩), (tB, ⟨1, 0, 0, 2⟩)]
    (by with_unfolding_all decide) (tB, ⟨1, 0, 0, 2⟩)
    (by with_unfolding_all decide)

/-- Claim C5: every standings list returned by calculate_standings is sorted
by wins descending with points descending as tie-break (the relation
standGE), and the complete ordering is a deterministic function of the
inputs: equal inputs give equal outputs. -/
theorem C5_sorted_deterministic :
    (∀ (ws : ScoreMap) (sched : Schedule) (rows : List StandRow),
      calculate_standings ws sched = some rows → rows.Sorted standGE) ∧
    (∀ (ws1 ws2 : ScoreMap) (sched1 sched2 : Schedule),
      ws1 = ws2 → sched1 = sched2 →
      calculate_standings ws1 sched1 = calculate_standings ws2 sched2) := by
  constructor
  · intro ws sched rows h
    unfold calculate_standings at h
    cases hp : processSchedule ws 0 (initRecords ws) sched with
    | none =>
      rw [hp] at h
      simp at h
    | some recs =>
      rw [hp] at h
      have : List.insertionSort standGE
          (recs.map fun p => ⟨p.1, p.2.wins, p.2.losses, p.2.points⟩) = rows :=
        Option.some.inj h
      rw [← this]
      exact List.sorted_insertionSort standGE _
  · intro ws1 ws2 sched1 sched2 h1 h2
    subst h1
    subst h2
    rfl

/-- Claim C5 witness: the standings of the concrete four-team scenario are
sorted under standGE, and the repeated call gives the same list. -/
theorem C5_witness :
    ([⟨tC, 2, 0, 165⟩, ⟨tB, 1, 1, 185⟩, ⟨tA, 1, 1, 160⟩,
      ⟨tD, 0, 2, 120⟩] : List StandRow).Sorted standGE ∧
    calculate_standings wsABCD schedABCD = calculate_standings wsABCD schedABCD := by
  constructor
  · exact C5_sorted_deterministic.1 wsABCD schedABCD _ (by with_unfolding_all decide)
  · exact C5_sorted_deterministic.2 wsABCD wsABCD schedABCD schedABCD rfl rfl

/-- Claim C6: the Monte Carlo aggregator is deterministic: two runs with
identical score matrix, week count, playoff-slot count, trial count and seed
produce identical accumulators (hence identical playoff counts, placement
histograms, total-wins sums and championship counts). -/
theorem C6_determinism (ws1 ws2 : ScoreMap) (nw1 nw2 s1 s2 n1 n2 sd1 sd2 : Nat)
    (hws : ws1 = ws2) (hnw : nw1 = nw2) (hs : s1 = s2) (hn : n1 = n2)
    (hsd : sd1 = sd2) :
    run_monte_carlo ws1 nw1 s1 n1 sd1 = run_monte_carlo ws2 nw2 s2 n2 sd2 := by
  subst hws
  subst hnw
  subst hs
  subst hn
  subst hsd
  rfl

/-- Claim C6 witness: the two-team run repeated with equal arguments. -/
theorem C6_witness :
    run_monte_carlo [(tA, [1]), (tB, [2])] 1 1 1 42 =
      run_monte_carlo [(tA, [1]), (tB, [2])] 1 1 1 42 :=
  C6_determinism _ _ _ _ _ _ _ _ _ _ rfl rfl rfl rfl rfl

/-- Claim C7: on a team list of odd length the week sampler fails (the
source raises an IndexError while pairing, modelled as none) instead of
returning a week of matchups. -/
theorem C7_odd_fails (teams : List Team) (rng : Nat)
    (h : teams.length % 2 = 1) :
    generate_round_robin_week teams rng = none :=
  generate_round_robin_week_odd teams rng h

/-- Claim C7 witness: a three-team list fails for the generator state 7. -/
theorem C7_witness : generate_round_robin_week [tA, tB, tC] 7 = none :=
  C7_odd_fails [tA, tB, tC] 7 (by decide)

/-- Claim C8: a schedule containing a matchup that references a team absent
from the score matrix makes calculate_standings fail (the KeyError of the
source, modelled as none). -/
theorem C8_missing_team (ws : ScoreMap) (sched : Schedule)
    (h : ∃ wk ∈ sched, ∃ m ∈ wk,
      m.1 ∉ ws.map Prod.fst ∨ m.2 ∉ ws.map Prod.fst) :
    calculate_standings ws sched = none := by
  unfold calculate_standings
  rw [processSchedule_none_of_missing ws sched 0 (initRecords ws) h]

/-- Claim C8 witness: a one-team matrix scored against a schedule that
mentions the absent team B. -/
theorem C8_witness :
    calculate_standings [(tA, [(1 : Rat)])] [[(tA, tB)]] = none :=
  C8_missing_team [(tA, [(1 : Rat)])] [[(tA, tB)]]
    ⟨[(tA, tB)], by simp, (tA, tB), by simp, Or.inr (by decide)⟩

/-- Claim C9: on an even-length list of distinct teams the week sampler
returns a perfect matching: the mentioned teams are a permutation of the
input list, so every team appears in exactly one matchup. -/
theorem C9_perfect_matching (teams : List Team) (rng : Nat)
    (hnd : teams.Nodup) (heven : teams.length % 2 = 0) :
    ∃ ms rng2, generate_round_robin_week teams rng = some (ms, rng2) ∧
      (weekTeams ms).Perm teams ∧
      ∀ u ∈ teams, occCount u (weekTeams ms) = 1 := by
  have hlen : (shuffle teams rng).1.length = teams.length :=
    (shuffle_fst_perm teams rng).length_eq
  obtain ⟨ms, hms⟩ := pairUp_even_isSome (shuffle teams rng).1
    (by rw [hlen]; exact heven)
  have hperm : (weekTeams ms).Perm teams := by
    rw [pairUp_weekTeams (shuffle teams rng).1 ms hms]
    exact shuffle_fst_perm teams rng
  refine ⟨ms, (shuffle teams rng).2, ?_, hperm, ?_⟩
  · show Option.map (fun ms0 => (ms0, (shuffle teams rng).2))
      (pairUp (shuffle teams rng).1) = some (ms, (shuffle teams rng).2)
    rw [hms]
    rfl
  · intro u hu
    rw [occCount_eq_count, hperm.count_eq]
    exact List.count_eq_one_of_mem hnd hu

/-- Claim C9 witness: the two-team list with generator state 5 produces the
single matchup (A, B), a perfect matching in which each team appears once. -/
theorem C9_witness :
    generate_round_robin_week [tA, tB] 5 = some ([(tA, tB)], 554244747) ∧
    (weekTeams [(tA, tB)]).Perm [tA, tB] ∧
    occCount tA (weekTeams [(tA, tB)]) = 1 ∧
    occCount tB (weekTeams [(tA, tB)]) = 1 := by
  have hconc : generate_round_robin_week [tA, tB] 5 =
      some ([(tA, tB)], 554244747) := by decide
  obtain ⟨ms, rng2, h1, h2, h3⟩ := C9_perfect_matching [tA, tB] 5
    (by decide) (by decide)
  rw [hconc] at h1
  have hms : ms = [(tA, tB)] := by
    injection h1 with h1'
    exact (congrArg Prod.fst h1').symm
  refine ⟨hconc, ?_, ?_, ?_⟩
  · rw [← hms]
    exact h2
  · rw [← hms]
    exact h3 tA (by simp)
  · rw [← hms]
    exact h3 tB (by simp)

/-! ## Claim C10: one row per team, untouched teams keep zero records -/

theorem schedCount_eq_zero (k : Team) :
    ∀ sched : Schedule, k ∉ schedTeams sched → schedCount k sched = 0
  | [] => fun _ => rfl
  | wk :: rest => by
    intro h
    have h2 : k ∉ weekTeams wk ∧ k ∉ schedTeams rest := by
      rw [schedTeams] at h
      simp only [List.mem_append, not_or] at h
      exact h
    rw [schedCount, occCount_eq_count, List.count_eq_zero.mpr h2.1,
      schedCount_eq_zero k rest h2.2]

/-- Claim C10 (amended): when every matchup references only teams of the
score matrix and, additionally, every score sequence has at least as many
entries as the schedule has weeks, calculate_standings succeeds, its rows
carry exactly the teams of the matrix (one row per team), and a team that
appears in no matchup keeps wins = losses = ties = 0 and points equal to the
sum of its full score sequence, both in the records dict and in the returned
rows.  (The original claim, without the score-length condition, is refuted
by C10_counterexample: the source raises IndexError there.) -/
theorem C10_row_per_team (ws : ScoreMap) (sched : Schedule)
    (hnd : (ws.map Prod.fst).Nodup)
    (hpresent : ∀ wk ∈ sched, ∀ m ∈ wk,
      m.1 ∈ ws.map Prod.fst ∧ m.2 ∈ ws.map Prod.fst)
    (hlong : ∀ p ∈ ws, sched.length ≤ p.2.length) :
    (calculate_standings ws sched).isSome = true ∧
    (∀ rows, calculate_standings ws sched = some rows →
      (rows.map StandRow.team).Perm (ws.map Prod.fst)) ∧
    (∀ p ∈ ws, p.1 ∉ schedTeams sched →
      ∀ recs, processSchedule ws 0 (initRecords ws) sched = some recs →
        (p.1, (⟨0, 0, 0, p.2.sum⟩ : TeamRec)) ∈ recs) ∧
    (∀ p ∈ ws, p.1 ∉ schedTeams sched →
      ∀ rows, calculate_standings ws sched = some rows →
        (⟨p.1, 0, 0, p.2.sum⟩ : StandRow) ∈ rows) := by
  have hsc : ∀ wk ∈ sched, ∀ u ∈ weekTeams wk,
      ∃ l, lookupQ ws u = some l ∧ 0 + sched.length ≤ l.length := by
    intro wk hwk u hu
    obtain ⟨m, hm, hum⟩ := (mem_weekTeams_iff u wk).mp hu
    have humem : u ∈ ws.map Prod.fst := by
      rcases hum with h | h
      · exact h ▸ (hpresent wk hwk m hm).1
      · exact h ▸ (hpresent wk hwk m hm).2
    obtain ⟨l, hl⟩ := lookupQ_isSome_of_mem ws u humem
    refine ⟨l, hl, ?_⟩
    have h3 : sched.length ≤ l.length := hlong (u, l) (lookupQ_mem ws u l hl)
    omega
  obtain ⟨eff, heq, hpts, hsum, hid⟩ := processSchedule_eq ws sched 0 hsc
  have hproc := heq (initRecords ws)
  have huntouched : ∀ p ∈ ws, p.1 ∉ schedTeams sched →
      (p.1, (⟨0, 0, 0, p.2.sum⟩ : TeamRec)) ∈
        (initRecords ws).map fun q => (q.1, eff q.1 q.2) := by
    intro p hp hout
    have heffid : eff p.1 (⟨0, 0, 0, p.2.sum⟩ : TeamRec) = ⟨0, 0, 0, p.2.sum⟩ :=
      hid p.1 _ (schedCount_eq_zero p.1 sched hout)
    have hin : (p.1, (⟨0, 0, 0, p.2.sum⟩ : TeamRec)) ∈ initRecords ws := by
      rw [initRecords]
      exact List.mem_map_of_mem _ hp
    have hm := List.mem_map_of_mem (fun q => (q.1, eff q.1 q.2)) hin
    have hm2 : (p.1, eff p.1 (⟨0, 0, 0, p.2.sum⟩ : TeamRec)) ∈
        (initRecords ws).map fun q => (q.1, eff q.1 q.2) := hm
    rw [heffid] at hm2
    exact hm2
  refine ⟨by simp [calculate_standings, hproc], ?_, ?_, ?_⟩
  · intro rows hrows
    simp only [calculate_standings, hproc] at hrows
    have hrows2 : List.insertionSort standGE
        (((initRecords ws).map fun q => (q.1, eff q.1 q.2)).map fun p =>
          (⟨p.1, p.2.wins, p.2.losses, p.2.points⟩ : StandRow)) = rows :=
      Option.some.inj hrows
    have hperm := List.perm_insertionSort standGE
      (((initRecords ws).map fun q => (q.1, eff q.1 q.2)).map fun p =>
        (⟨p.1, p.2.wins, p.2.losses, p.2.points⟩ : StandRow))
    rw [hrows2] at hperm
    have hmapteam := hperm.map StandRow.team
    have hkeys : ((((initRecords ws).map fun q => (q.1, eff q.1 q.2)).map fun p =>
        (⟨p.1, p.2.wins, p.2.losses, p.2.points⟩ : StandRow)).map StandRow.team) =
        ws.map Prod.fst := by
      simp [initRecords, List.map_map]
    rw [hkeys] at hmapteam
    exact hmapteam
  · intro p hp hout recs hrecs
    rw [hproc] at hrecs
    have : (initRecords ws).map (fun q => (q.1, eff q.1 q.2)) = recs :=
      Option.some.inj hrecs
    rw [← this]
    exact huntouched p hp hout
  · intro p hp hout rows hrows
    simp only [calculate_standings, hproc] at hrows
    have hrows2 : List.insertionSort standGE
        (((initRecords ws).map fun q => (q.1, eff q.1 q.2)).map fun p =>
          (⟨p.1, p.2.wins, p.2.losses, p.2.points⟩ : StandRow)) = rows :=
      Option.some.inj hrows
    have hperm := List.perm_insertionSort standGE
      (((initRecords ws).map fun q => (q.1, eff q.1 q.2)).map fun p =>
        (⟨p.1, p.2.wins, p.2.losses, p.2.points⟩ : StandRow))
    rw [hrows2] at hperm
    refine hperm.mem_iff.mpr ?_
    exact List.mem_map_of_mem
      (fun p => (⟨p.1, p.2.wins, p.2.losses, p.2.points⟩ : StandRow))
      (huntouched p hp hout)

/-- Claim C10 counterexample: both teams of the matchup are present in the
score matrix, but the score sequences are empty while the schedule has one
week, so the source raises IndexError (modelled as none) instead of
returning one row per team. -/
theorem C10_counterexample :
    tA ∈ ([(tA, ([] : List Rat)), (tB, [])] : ScoreMap).map Prod.fst ∧
    tB ∈ ([(tA, ([] : List Rat)), (tB, [])] : ScoreMap).map Prod.fst ∧
    calculate_standings [(tA, ([] : List Rat)), (tB, [])] [[(tA, tB)]] = none := by
  refine ⟨?_, ?_, ?_⟩ <;> with_unfolding_all decide

/-- Claim C10 witness: four teams, schedule with the single matchup (A, B);
teams C and D appear in no matchup yet get rows with zero records and their
full point totals. -/
theorem C10_witness :
    (calculate_standings [(tA, [1]), (tB, [2]), (tC, [3]), (tD, [4])]
      [[(tA, tB)]]).isSome = true ∧
    (([⟨tB, 1, 0, 2⟩, ⟨tD, 0, 0, 4⟩, ⟨tC, 0, 0, 3⟩,
        ⟨tA, 0, 1, 1⟩] : List StandRow).map StandRow.team).Perm
      (([(tA, [1]), (tB, [2]), (tC, [3]), (tD, [4])] : ScoreMap).map Prod.fst) ∧
    (tC, (⟨0, 0, 0, (3 : Rat)⟩ : TeamRec)) ∈
      ([(tA, ⟨0, 1, 0, 1⟩), (tB, ⟨1, 0, 0, 2⟩), (tC, ⟨0, 0, 0, 3⟩),
        (tD, ⟨0, 0, 0, 4⟩)] : List (Team × TeamRec)) ∧
    (⟨tC, 0, 0, (3 : Rat)⟩ : StandRow) ∈
      ([⟨tB, 1, 0, 2⟩, ⟨tD, 0, 0, 4⟩, ⟨tC, 0, 0, 3⟩,
        ⟨tA, 0, 1, 1⟩] : List StandRow) := by
  have h := C10_row_per_team [(tA, [1]), (tB, [2]), (tC, [3]), (tD, [4])]
    [[(tA, tB)]] (by with_unfolding_all decide)
    (by with_unfolding_all decide) (by with_unfolding_all decide)
  refine ⟨h.1, ?_, ?_, ?_⟩
  · exact h.2.1 _ (by with_unfolding_all decide)
  · have hx := h.2.2.1 (tC, [3]) (by with_unfolding_all decide)
      (by with_unfolding_all decide)
      [(tA, ⟨0, 1, 0, 1⟩), (tB, ⟨1, 0, 0, 2⟩), (tC, ⟨0, 0, 0, 3⟩),
        (tD, ⟨0, 0, 0, 4⟩)] (by with_unfolding_all decide)
    with_unfolding_all exact hx
  · have hx := h.2.2.2 (tC, [3]) (by with_unfolding_all decide)
      (by with_unfolding_all decide)
      [⟨tB, 1, 0, 2⟩, ⟨tD, 0, 0, 4⟩, ⟨tC, 0, 0, 3⟩, ⟨tA, 0, 1, 1⟩]
      (by with_unfolding_all decide)
    with_unfolding_all exact hx

/-! ## Lemmas: the all-play pair-counting identity of calculate_expected_wins -/

theorem sum_map_add {M : Type} [AddCommMonoid M] {β : Type} (f g : β → M) :
    ∀ l : List β, (l.map fun x => f x + g x).sum = (l.map f).sum + (l.map g).sum
  | [] => by simp
  | a :: rest => by
    simp only [List.map_cons, List.sum_cons, sum_map_add f g rest]
    rw [add_add_add_comm]

theorem sum_map_mul_left {β : Type} (c : Rat) (f : β → Rat) :
    ∀ l : List β, (l.map fun x => c * f x).sum = c * (l.map f).sum
  | [] => by simp
  | a :: rest => by
    simp only [List.map_cons, List.sum_cons, sum_map_mul_left c f rest]
    rw [mul_add]

theorem sum_map_div {β : Type} (c : Rat) (f : β → Rat) :
    ∀ l : List β, (l.map fun x => f x / c).sum = (l.map f).sum / c
  | [] => by simp
  | a :: rest => by
    simp only [List.map_cons, List.sum_cons, sum_map_div c f rest]
    rw [add_div]

theorem sum_map_const_nat {β : Type} (c : Nat) :
    ∀ l : List β, (l.map fun _ => c).sum = l.length * c
  | [] => by simp
  | a :: rest => by
    simp only [List.map_cons, List.sum_cons, sum_map_const_nat c rest,
      List.length_cons]
    rw [Nat.succ_mul]
    omega

theorem sum_map_ite_length {β : Type} (p : β → Prop) [DecidablePred p] :
    ∀ l : List β,
      (l.map fun x => if p x then (1 : Nat) else 0).sum =
      (l.filter fun x => decide (p x)).length
  | [] => rfl
  | a :: rest => by
    simp only [List.map_cons, List.sum_cons, sum_map_ite_length p rest,
      List.filter_cons]
    by_cases h : p a <;> simp [h] <;> omega

theorem sum_map_sub_one_add {β : Type} (h : β → Nat) :
    ∀ l : List β, (∀ x ∈ l, 1 ≤ h x) →
      (l.map fun x => h x - 1).sum + l.length = (l.map h).sum
  | [] => by simp
  | a :: rest => by
    intro hge
    have ha : 1 ≤ h a := hge a (List.mem_cons_self a rest)
    have ih := sum_map_sub_one_add h rest fun x hx =>
      hge x (List.mem_cons_of_mem a hx)
    simp only [List.map_cons, List.sum_cons, List.length_cons]
    omega

theorem length_filter_cons {β : Type} (p : β → Bool) (a : β) (l : List β) :
    ((a :: l).filter p).length =
      (if p a then 1 else 0) + (l.filter p).length := by
  rw [List.filter_cons]
  by_cases h : p a <;> simp [h] <;> omega

theorem sum_below_eq_sum_above :
    ∀ l : List (Team × Rat),
      (l.map fun q => ((l.filter fun r => decide (r.2 < q.2)).length)).sum =
      (l.map fun q => ((l.filter fun r => decide (q.2 < r.2)).length)).sum
  | [] => rfl
  | a :: l => by
    have hlt : ∀ q : Team × Rat,
        ((a :: l).filter fun r => decide (r.2 < q.2)).length =
        (if a.2 < q.2 then 1 else 0) +
          (l.filter fun r => decide (r.2 < q.2)).length := by
      intro q
      rw [length_filter_cons]
      by_cases h : a.2 < q.2 <;> simp [h]
    have hgt : ∀ q : Team × Rat,
        ((a :: l).filter fun r => decide (q.2 < r.2)).length =
        (if q.2 < a.2 then 1 else 0) +
          (l.filter fun r => decide (q.2 < r.2)).length := by
      intro q
      rw [length_filter_cons]
      by_cases h : q.2 < a.2 <;> simp [h]
    rw [List.map_cons, List.sum_cons, List.map_cons, List.sum_cons]
    rw [List.map_eq_map_iff.mpr (fun q _ => hlt q),
      List.map_eq_map_iff.mpr (fun q _ => hgt q)]
    rw [sum_map_add (fun q : Team × Rat => if a.2 < q.2 then (1 : Nat) else 0)
      (fun q => (l.filter fun r => decide (r.2 < q.2)).length) l]
    rw [sum_map_add (fun q : Team × Rat => if q.2 < a.2 then (1 : Nat) else 0)
      (fun q => (l.filter fun r => decide (q.2 < r.2)).length) l]
    rw [hlt a, hgt a]
    rw [if_neg (lt_irrefl a.2)]
    rw [sum_map_ite_length (fun q : Team × Rat => a.2 < q.2) l]
    rw [sum_map_ite_length (fun q : Team × Rat => q.2 < a.2) l]
    rw [sum_below_eq_sum_above l]
    omega

theorem filter_length_partition (s : Rat) :
    ∀ l : List (Team × Rat),
      (l.filter fun r => decide (r.2 < s)).length +
      (l.filter fun r => decide (r.2 = s)).length +
      (l.filter fun r => decide (s < r.2)).length = l.length
  | [] => rfl
  | a :: l => by
    have ih := filter_length_partition s l
    rw [length_filter_cons, length_filter_cons, length_filter_cons,
      List.length_cons]
    rcases lt_trichotomy a.2 s with h | h | h
    · rw [if_pos (by simpa using h), if_neg (by simp [ne_of_lt h]),
        if_neg (by simp [not_lt_of_lt h])]
      omega
    · rw [if_neg (by simp [h]), if_pos (by simpa using h),
        if_neg (by simp [h])]
      omega
    · rw [if_neg (by simp [not_lt_of_lt h]), if_neg (by simp [ne_of_gt h]),
        if_pos (by simpa using h)]
      omega

theorem one_le_filter_eq (l : List (Team × Rat)) (q : Team × Rat) (hq : q ∈ l) :
    1 ≤ (l.filter fun r => decide (r.2 = q.2)).length := by
  have hmem : q ∈ l.filter fun r => decide (r.2 = q.2) :=
    List.mem_filter.mpr ⟨hq, by simp⟩
  have := List.length_pos_of_mem hmem
  omega

theorem week_numerator_sum (l : List (Team × Rat)) :
    (l.map fun q => 2 * (l.filter fun r => decide (r.2 < q.2)).length +
      ((l.filter fun r => decide (r.2 = q.2)).length - 1)).sum + l.length =
    l.length * l.length := by
  have hpart : ∀ q ∈ l,
      ((l.filter fun r => decide (r.2 < q.2)).length +
       (l.filter fun r => decide (r.2 = q.2)).length +
       (l.filter fun r => decide (q.2 < r.2)).length : Nat) = l.length :=
    fun q _ => filter_length_partition q.2 l
  have hS : (l.map fun q => ((l.filter fun r => decide (r.2 < q.2)).length +
      (l.filter fun r => decide (r.2 = q.2)).length +
      (l.filter fun r => decide (q.2 < r.2)).length : Nat)).sum =
      l.length * l.length := by
    rw [List.map_eq_map_iff.mpr hpart, sum_map_const_nat]
  rw [sum_map_add (fun q => (l.filter fun r => decide (r.2 < q.2)).length +
      (l.filter fun r => decide (r.2 = q.2)).length)
      (fun q => (l.filter fun r => decide (q.2 < r.2)).length) l] at hS
  rw [sum_map_add (fun q => (l.filter fun r => decide (r.2 < q.2)).length)
      (fun q => (l.filter fun r => decide (r.2 = q.2)).length) l] at hS
  rw [sum_map_add (fun q => 2 * (l.filter fun r => decide (r.2 < q.2)).length)
      (fun q => (l.filter fun r => decide (r.2 = q.2)).length - 1) l]
  have h2A : (l.map fun q =>
      2 * (l.filter fun r => decide (r.2 < q.2)).length).sum =
      (l.map fun q => (l.filter fun r => decide (r.2 < q.2)).length).sum +
      (l.map fun q => (l.filter fun r => decide (r.2 < q.2)).length).sum := by
    rw [show (l.map fun q =>
        2 * (l.filter fun r => decide (r.2 < q.2)).length)
        = l.map fun q => (l.filter fun r => decide (r.2 < q.2)).length +
          (l.filter fun r => decide (r.2 < q.2)).length from
      List.map_eq_map_iff.mpr fun q _ => two_mul _]
    exact sum_map_add _ _ l
  rw [h2A]
  have hg : (l.map fun q =>
      (l.filter fun r => decide (r.2 = q.2)).length - 1).sum + l.length =
      (l.map fun q => (l.filter fun r => decide (r.2 = q.2)).length).sum :=
    sum_map_sub_one_add _ l (fun q hq => one_le_filter_eq l q hq)
  have hab := sum_below_eq_sum_above l
  generalize hm : l.length * l.length = m at hS ⊢
  omega

theorem winRate_sum (l : List (Team × Rat)) (h2 : 2 ≤ l.length) :
    (l.map fun q => winRate l l.length q.2).sum = (l.length : Rat) / 2 := by
  have hhalf : (0.5 : Rat) = 1 / 2 := by norm_num
  have hnum : ∀ q ∈ l, winRate l l.length q.2 =
      (((2 * (l.filter fun r => decide (r.2 < q.2)).length +
        ((l.filter fun r => decide (r.2 = q.2)).length - 1) : Nat) : Rat) / 2) /
        ((l.length : Rat) - 1) := by
    intro q _
    simp only [winRate, hhalf]
    congr 1
    push_cast
    ring
  rw [List.map_eq_map_iff.mpr hnum, sum_map_div]
  have hmm : (l.map fun q =>
      ((2 * (l.filter fun r => decide (r.2 < q.2)).length +
        ((l.filter fun r => decide (r.2 = q.2)).length - 1) : Nat) : Rat)).sum
      = (((l.map fun q =>
        (2 * (l.filter fun r => decide (r.2 < q.2)).length +
        ((l.filter fun r => decide (r.2 = q.2)).length - 1) : Nat)).sum
          : Nat) : Rat) := by
    rw [Nat.cast_list_sum, List.map_map]
    rfl
  rw [show (l.map fun q =>
      ((2 * (l.filter fun r => decide (r.2 < q.2)).length +
        ((l.filter fun r => decide (r.2 = q.2)).length - 1) : Nat) : Rat) / 2)
      = l.map fun q =>
      (((2 * (l.filter fun r => decide (r.2 < q.2)).length +
        ((l.filter fun r => decide (r.2 = q.2)).length - 1) : Nat) : Rat)) / (2:Rat)
      from rfl]
  rw [sum_map_div, hmm]
  have hsum : (l.map fun q =>
      (2 * (l.filter fun r => decide (r.2 < q.2)).length +
      ((l.filter fun r => decide (r.2 = q.2)).length - 1) : Nat)).sum
      = l.length * l.length - l.length := by
    have hid := week_numerator_sum l
    generalize hm : l.length * l.length = m at hid ⊢
    omega
  rw [hsum]
  have hle : l.length ≤ l.length * l.length := by nlinarith
  rw [Nat.cast_sub hle]
  push_cast
  have hn2 : (2 : Rat) ≤ (l.length : Rat) := by exact_mod_cast h2
  have hne : (l.length : Rat) - 1 ≠ 0 := by
    intro hc
    linarith
  field_simp
  ring

theorem updAdd_not_mem : ∀ (acc : List (Team × Rat)) (t : Team) (v : Rat),
    t ∉ acc.map Prod.fst → updAdd acc t v = acc
  | [], _, _, _ => rfl
  | e :: rest, t, v, h => by
    have h1 : e.1 ≠ t := by
      intro hc
      exact h (by simp [hc])
    have h2 : t ∉ rest.map Prod.fst := by
      intro hc
      exact h (by simp [hc])
    have hcons : updAdd (e :: rest) t v =
        (if e.1 = t then (e.1, e.2 + v) else e) :: updAdd rest t v := rfl
    rw [hcons, if_neg h1, updAdd_not_mem rest t v h2]

theorem updAdd_fst (acc : List (Team × Rat)) (t : Team) (v : Rat) :
    (updAdd acc t v).map Prod.fst = acc.map Prod.fst := by
  unfold updAdd
  rw [List.map_map]
  apply List.map_eq_map_iff.mpr
  intro e _
  by_cases h : e.1 = t <;> simp [h]

theorem updAdd_sum : ∀ (acc : List (Team × Rat)) (t : Team) (v : Rat),
    (acc.map Prod.fst).Nodup → t ∈ acc.map Prod.fst →
    ((updAdd acc t v).map Prod.snd).sum = (acc.map Prod.snd).sum + v
  | [], _, _, _, hmem => by simp at hmem
  | e :: rest, t, v, hnd, hmem => by
    simp only [List.map_cons, List.nodup_cons] at hnd
    simp only [List.map_cons, List.mem_cons] at hmem
    have hcons : updAdd (e :: rest) t v =
        (if e.1 = t then (e.1, e.2 + v) else e) :: updAdd rest t v := rfl
    rw [hcons]
    simp only [List.map_cons, List.sum_cons]
    by_cases h : e.1 = t
    · rw [if_pos h]
      have hnotin : t ∉ rest.map Prod.fst := by
        rw [← h]
        exact hnd.1
      rw [updAdd_not_mem rest t v hnotin]
      show e.2 + v + (rest.map Prod.snd).sum =
        e.2 + (rest.map Prod.snd).sum + v
      ring
    · rw [if_neg h]
      have hmem' : t ∈ rest.map Prod.fst :=
        hmem.resolve_left fun hc => h hc.symm
      rw [updAdd_sum rest t v hnd.2 hmem']
      ring

theorem foldl_updAdd_fst (g : Team × Rat → Rat) :
    ∀ (L acc : List (Team × Rat)),
      ((L.foldl (fun a q => updAdd a q.1 (g q)) acc).map Prod.fst) =
        acc.map Prod.fst
  | [], _ => rfl
  | q :: L, acc => by
    simp only [List.foldl_cons]
    rw [foldl_updAdd_fst g L (updAdd acc q.1 (g q)), updAdd_fst]

theorem foldl_updAdd_sum (g : Team × Rat → Rat) :
    ∀ (L acc : List (Team × Rat)),
      (acc.map Prod.fst).Nodup →
      (∀ q ∈ L, q.1 ∈ acc.map Prod.fst) →
      ((L.foldl (fun a q => updAdd a q.1 (g q)) acc).map Prod.snd).sum =
        (acc.map Prod.snd).sum + (L.map g).sum
  | [], acc, _, _ => by simp
  | q :: L, acc, hnd, hkeys => by
    simp only [List.foldl_cons, List.map_cons, List.sum_cons]
    have hnd' : ((updAdd acc q.1 (g q)).map Prod.fst).Nodup := by
      rw [updAdd_fst]
      exact hnd
    have hkeys' : ∀ r ∈ L, r.1 ∈ (updAdd acc q.1 (g q)).map Prod.fst := by
      intro r hr
      rw [updAdd_fst]
      exact hkeys r (List.mem_cons_of_mem q hr)
    rw [foldl_updAdd_sum g L (updAdd acc q.1 (g q)) hnd' hkeys',
      updAdd_sum acc q.1 (g q) hnd (hkeys q (List.mem_cons_self q L))]
    ring

theorem weekPairs_length : ∀ (ws : ScoreMap) (w : Nat)
    (pairs : List (Team × Rat)),
    weekPairs ws w = some pairs → pairs.length = ws.length
  | [], _, pairs, h => by
    have h2 : some ([] : List (Team × Rat)) = some pairs := h
    rw [← Option.some.inj h2]
    rfl
  | p :: rest, w, pairs, h => by
    have h2 : (match p.2[w]? with
        | some s => (weekPairs rest w).map fun l => (p.1, s) :: l
        | none => none) = some pairs := h
    cases hw : p.2[w]? with
    | none =>
      rw [hw] at h2
      exact absurd h2 (by simp)
    | some s =>
      rw [hw] at h2
      cases hr : weekPairs rest w with
      | none =>
        rw [hr] at h2
        exact absurd h2 (by simp)
      | some l =>
        rw [hr] at h2
        have h3 : (p.1, s) :: l = pairs := Option.some.inj h2
        rw [← h3]
        simp [weekPairs_length rest w l hr]

theorem weekPairs_fst : ∀ (ws : ScoreMap) (w : Nat)
    (pairs : List (Team × Rat)),
    weekPairs ws w = some pairs → pairs.map Prod.fst = ws.map Prod.fst
  | [], _, pairs, h => by
    have h2 : some ([] : List (Team × Rat)) = some pairs := h
    rw [← Option.some.inj h2]
    rfl
  | p :: rest, w, pairs, h => by
    have h2 : (match p.2[w]? with
        | some s => (weekPairs rest w).map fun l => (p.1, s) :: l
        | none => none) = some pairs := h
    cases hw : p.2[w]? with
    | none =>
      rw [hw] at h2
      exact absurd h2 (by simp)
    | some s =>
      rw [hw] at h2
      cases hr : weekPairs rest w with
      | none =>
        rw [hr] at h2
        exact absurd h2 (by simp)
      | some l =>
        rw [hr] at h2
        have h3 : (p.1, s) :: l = pairs := Option.some.inj h2
        rw [← h3]
        simp only [List.map_cons]
        rw [weekPairs_fst rest w l hr]

theorem sum_map_zero {β : Type} : ∀ l : List β,
    (l.map fun _ => (0 : Rat)).sum = 0
  | [] => rfl
  | a :: rest => by simp [sum_map_zero rest]

theorem ew_loop (ws : ScoreMap) (h2team : 2 ≤ ws.length) :
    ∀ (L : List Nat) (acc out : List (Team × Rat)),
      (acc.map Prod.fst).Nodup →
      acc.map Prod.fst = ws.map Prod.fst →
      L.foldlM (fun acc w => (weekPairs ws w).map fun pairs =>
        applyWeek acc (List.insertionSort scoreGE pairs) ws.length) acc =
        some out →
      (out.map Prod.snd).sum =
        (acc.map Prod.snd).sum + (L.length : Rat) * ((ws.length : Rat) / 2)
  | [], acc, out, _, _, h => by
    have h2 : some acc = some out := h
    rw [← Option.some.inj h2]
    simp
  | w :: L, acc, out, hnd, hkeys, h => by
    rw [List.foldlM_cons] at h
    cases hw : weekPairs ws w with
    | none =>
      rw [hw] at h
      exact absurd h (by simp)
    | some pairs =>
      rw [hw] at h
      have h2 : L.foldlM (fun acc w => (weekPairs ws w).map fun pairs =>
          applyWeek acc (List.insertionSort scoreGE pairs) ws.length)
          (applyWeek acc (List.insertionSort scoreGE pairs) ws.length) =
          some out := by
        simpa using h
      have hplen := weekPairs_length ws w pairs hw
      have hslen : (List.insertionSort scoreGE pairs).length = ws.length := by
        rw [(List.perm_insertionSort scoreGE pairs).length_eq, hplen]
      have hsum := winRate_sum (List.insertionSort scoreGE pairs)
        (by rw [hslen]; exact h2team)
      rw [hslen] at hsum
      have hkeys2 : ∀ q ∈ List.insertionSort scoreGE pairs,
          q.1 ∈ acc.map Prod.fst := by
        intro q hq
        have hq2 : q ∈ pairs :=
          (List.perm_insertionSort scoreGE pairs).mem_iff.mp hq
        rw [hkeys, ← weekPairs_fst ws w pairs hw]
        exact List.mem_map_of_mem Prod.fst hq2
      have hasum : ((applyWeek acc (List.insertionSort scoreGE pairs)
          ws.length).map Prod.snd).sum =
          (acc.map Prod.snd).sum +
          ((List.insertionSort scoreGE pairs).map fun q =>
            winRate (List.insertionSort scoreGE pairs) ws.length q.2).sum :=
        foldl_updAdd_sum _ _ acc hnd hkeys2
      have hfst' : (applyWeek acc (List.insertionSort scoreGE pairs)
          ws.length).map Prod.fst = acc.map Prod.fst :=
        foldl_updAdd_fst _ _ acc
      have hnd' : ((applyWeek acc (List.insertionSort scoreGE pairs)
          ws.length).map Prod.fst).Nodup := by
        rw [hfst']
        exact hnd
      have hkeys' : (applyWeek acc (List.insertionSort scoreGE pairs)
          ws.length).map Prod.fst = ws.map Prod.fst := by
        rw [hfst', hkeys]
      have ih := ew_loop ws h2team L _ out hnd' hkeys' h2
      rw [ih, hasum, hsum]
      simp only [List.length_cons]
      push_cast
      ring

/-- Claim C2: for every score matrix with at least two teams, distinct team
keys, and all teams having numWeeks weeks of scores, the per-week sum over
all teams of the win rate computed by calculate_expected_wins equals
numTeams / 2 exactly, and the season-total expected wins summed over all
teams equals numWeeks * numTeams / 2 exactly. -/
theorem C2_win_rate_sums (ws : ScoreMap) (hnd : (ws.map Prod.fst).Nodup)
    (h2 : 2 ≤ ws.length) :
    (∀ w pairs, weekPairs ws w = some pairs →
      ((List.insertionSort scoreGE pairs).map fun q =>
        winRate (List.insertionSort scoreGE pairs) ws.length q.2).sum =
      (ws.length : Rat) / 2) ∧
    (∀ numWeeks : Nat, (∀ p ∈ ws, p.2.length = numWeeks) →
      ∀ ew, calculate_expected_wins ws = some ew →
      (ew.map Prod.snd).sum = (numWeeks : Rat) * (ws.length : Rat) / 2) := by
  constructor
  · intro w pairs hw
    have hplen := weekPairs_length ws w pairs hw
    have hslen : (List.insertionSort scoreGE pairs).length = ws.length := by
      rw [(List.perm_insertionSort scoreGE pairs).length_eq, hplen]
    have hsum := winRate_sum (List.insertionSort scoreGE pairs)
      (by rw [hslen]; exact h2)
    rw [hslen] at hsum
    exact hsum
  · intro numWeeks hlen ew hew
    obtain ⟨p0, rest, rfl⟩ : ∃ p0 rest, ws = p0 :: rest := by
      cases ws with
      | nil => simp at h2
      | cons a l => exact ⟨a, l, rfl⟩
    have hfold : (List.range p0.2.length).foldlM
        (fun acc w => (weekPairs (p0 :: rest) w).map fun pairs =>
          applyWeek acc (List.insertionSort scoreGE pairs)
            (p0 :: rest).length)
        ((p0 :: rest).map fun p => (p.1, (0 : Rat))) = some ew := hew
    have hndinit : (((p0 :: rest).map fun p => (p.1, (0 : Rat))).map
        Prod.fst).Nodup := by
      rw [List.map_map]
      simpa [Function.comp] using hnd
    have hkeysinit : (((p0 :: rest).map fun p => (p.1, (0 : Rat))).map
        Prod.fst) = (p0 :: rest).map Prod.fst := by
      rw [List.map_map]
      simp [Function.comp]
    have hzero : (((p0 :: rest).map fun p => (p.1, (0 : Rat))).map
        Prod.snd).sum = 0 := by
      rw [List.map_map]
      exact sum_map_zero _
    have hloop := ew_loop (p0 :: rest) h2 (List.range p0.2.length)
      ((p0 :: rest).map fun p => (p.1, (0 : Rat))) ew hndinit hkeysinit hfold
    rw [hloop, hzero, List.length_range]
    have hw0 : p0.2.length = numWeeks := hlen p0 (List.mem_cons_self p0 rest)
    rw [hw0]
    ring

/-- Witness for C2 at the two-team matrix A=[1], B=[2]: the single week sums
to 2/2 = 1 win rate in total, and the season totals sum to 1 * 2 / 2. -/
theorem C2_witness :
    ((List.insertionSort scoreGE [(tA, (1 : Rat)), (tB, 2)]).map fun q =>
      winRate (List.insertionSort scoreGE [(tA, (1 : Rat)), (tB, 2)])
        ([(tA, [(1 : Rat)]), (tB, [2])] : ScoreMap).length q.2).sum =
      ((([(tA, [(1 : Rat)]), (tB, [2])] : ScoreMap).length : Nat) : Rat) / 2 ∧
    ([(tA, (0 : Rat)), (tB, 1)].map Prod.snd).sum =
      ((1 : Nat) : Rat) *
        ((([(tA, [(1 : Rat)]), (tB, [2])] : ScoreMap).length : Nat) : Rat) /
        2 := by
  have hc := C2_win_rate_sums [(tA, [(1 : Rat)]), (tB, [2])]
    (by with_unfolding_all decide) (by with_unfolding_all decide)
  refine ⟨hc.1 0 [(tA, (1 : Rat)), (tB, 2)] (by with_unfolding_all decide), ?_⟩
  exact hc.2 1 (by with_unfolding_all decide) [(tA, (0 : Rat)), (tB, 1)]
    (by with_unfolding_all decide)
